import Mathlib

/-!
# The source cursor and listing buffer of Cx (`cx/buffer.cpp`)

A shallow embedding of `text_in_buffer`, `source_buffer` and `list_buffer`
together with the namespace-scope variables of `cx::buffer`, followed by the
properties established for them.

Conventions of the embedding.

* A `wchar_t` is its code, a natural number; `L'\0'` is `0`, `L'\t'` is `9`,
  the newline delimiter of `getline` is `10`.
* The `int` counters are unbounded integers: a signed overflow is undefined in
  C++ and none of the properties below drives a counter near `INT_MAX`.
* `cap` stands for `MAX_INPUT_BUFFER_SIZE` of `buffer.h`, which is not among
  the sources: it is the number of cells of the array `text` and the limit
  handed to `getline`.
* `p_char` is a pointer either into the array `text` or to the constant
  `EOF_CHAR`; a read through it that is not the read of a cell of `text` has no
  defined value. The constant is declared `const char EOF_CHAR = 0x7F`, an
  object of one byte, and `get_line` stores `(wchar_t *)&buffer::EOF_CHAR`:
  the read `*p_char` of a `wchar_t` through that pointer covers bytes that are
  not part of the constant, so it has no defined value either.
* The content of a file is the sequence of characters the stream decodes from
  it; `none` stands for a file that cannot be opened.
-/

namespace cx

namespace buffer

/-- The special end-of-file character, `const char EOF_CHAR = 0x7F`. -/
def EOF_CHAR : Nat := 0x7F

/-- The print width, `const int max_printline_length = 80`. -/
def max_printline_length : Nat := 80

end buffer

/-- The local constant `tab_size` of `get_char`. -/
def tab_size : Int := 8

/-- The characters of the C string that starts at the head of an array:
everything before the first null character. -/
def cstr (a : List Nat) : List Nat := a.takeWhile (fun c => c != 0)

/-! ## The input stream -/

/-- The part of a `std::wifstream` the buffer depends on: the characters not
yet extracted, the two state bits that `getline` sets, and whether the file
is open. -/
structure wifstream where
  rest : List Nat
  eofbit : Bool
  failbit : Bool
  is_open : Bool
deriving DecidableEq, Repr

/-- What the extraction loop of `getline` leaves behind. -/
structure extraction where
  stored : List Nat
  rest : List Nat
  hit_eof : Bool
  hit_delim : Bool
deriving DecidableEq, Repr

/-- The extraction loop of `basic_istream::getline(s, n)` with `k` characters
already stored. The three stopping conditions are tested in the order of the
standard: end of input, then the delimiter (extracted, not stored), then
`n - 1` characters stored. -/
def getline_extract (n : Nat) : Nat → List Nat → extraction
  | _, [] => { stored := [], rest := [], hit_eof := true, hit_delim := false }
  | k, c :: r =>
    if c = 10 then { stored := [], rest := r, hit_eof := false, hit_delim := true }
    else if k + 1 < n then
      let x := getline_extract n (k + 1) r
      { x with stored := c :: x.stored }
    else { stored := [], rest := c :: r, hit_eof := false, hit_delim := false }

/-- Writing the characters `stored` and the terminating null character at the
start of the array `a`; the cells behind them keep their content. -/
def write_cstr (a : List Nat) (stored : List Nat) : List Nat :=
  stored ++ 0 :: a.drop (stored.length + 1)

/-- The call `file.getline(text, n)`: the new content of the array and the new
stream. A stream that is not good extracts nothing and only gets `failbit`;
otherwise `eofbit` is set when the input ends, `failbit` when `n - 1`
characters were stored before a delimiter, or when nothing was extracted. -/
def wifstream.getline (f : wifstream) (a : List Nat) (n : Nat) : List Nat × wifstream :=
  if f.eofbit || f.failbit then
    (if 0 < n then write_cstr a [] else a, { f with failbit := true })
  else
    let x := getline_extract n 0 f.rest
    (if 0 < n then write_cstr a x.stored else a,
     { f with
        rest := x.rest
        eofbit := x.hit_eof
        failbit := (!x.hit_eof && !x.hit_delim) || (x.stored.isEmpty && !x.hit_delim) })

/-- The call `file.close()`: closing a file that is not open sets `failbit`. -/
def wifstream.close (f : wifstream) : wifstream :=
  if f.is_open then { f with is_open := false } else { f with failbit := true }

/-- The call `file.open(name)` on a fresh stream: `none` is a file that cannot
be opened, `some c` a file whose decoded content is `c`. -/
def wifstream.open (content : Option (List Nat)) : wifstream :=
  match content with
  | none => { rest := [], eofbit := false, failbit := true, is_open := false }
  | some c => { rest := c, eofbit := false, failbit := false, is_open := true }

/-! ## The listing buffer -/

/-- One line written to `std::wcout` by `put_line`, tagged with the line number
and nesting level of the record it renders. -/
structure listing_record where
  text : List Nat
  line_number : Int
  nesting_level : Int
deriving DecidableEq, Repr

/-- What has been written to `std::wcout`: a line of the listing, or the message
of the base constructor for a file that could not be opened. -/
inductive printed where
  | line (r : listing_record)
  | open_failed (file_name : List Nat)
deriving DecidableEq, Repr

/-- The object `list_buffer`: its text, the line number and nesting level of
the record it holds, the source file name and the count of printed lines. -/
structure list_buffer where
  text : List Nat
  line_number : Int
  nesting_level : Int
  source_file_name : List Nat
  line_count : Int
deriving DecidableEq, Repr

/-- The function `list_buffer::initialize`. -/
def list_buffer.initialize (l : list_buffer) (file_name : List Nat) : list_buffer :=
  if file_name.isEmpty then l
  else { l with text := [], source_file_name := file_name }

/-- Modelled from the spec: `list_buffer::wbuffer` is defined in `buffer.h`,
which is not among the sources. By section 4.2 it stores the line text, the
line number and the nesting level as the current listing record. -/
def list_buffer.wbuffer (l : list_buffer) (p_text : List Nat) (line_number nesting_level : Int) :
    list_buffer :=
  { l with text := cstr p_text, line_number := line_number, nesting_level := nesting_level }

/-- The function `list_buffer::put_line`: the line is cut at
`max_printline_length`, printed, the text is blanked and `line_count` grows.
The result is the buffer and the standard output; the printed line goes
there with the line number and nesting level that `wbuffer` stored. -/
def list_buffer.put_line (l : list_buffer) (out : List printed) :
    list_buffer × List printed :=
  ({ l with text := [], line_count := l.line_count + 1 },
   out ++ [.line { text := cstr (l.text.take buffer.max_printline_length)
                   line_number := l.line_number
                   nesting_level := l.nesting_level }])

/-! ## The namespace-scope variables and the source buffer -/

/-- The variables of `namespace cx::buffer`, `scoping::current_nesting_level`
(read only here) and what has been written to `std::wcout`. -/
structure globals where
  current_line_number : Int
  input_position : Int
  list_flag : Bool
  list : list_buffer
  current_nesting_level : Int
  wcout : List printed
deriving DecidableEq, Repr

/-- The value of `p_char`: the address of cell `i` of `text`, or the address of
the constant `EOF_CHAR` moved by `k` characters. -/
inductive pointer where
  | into_text (i : Int)
  | to_eof_char (k : Int)
deriving DecidableEq, Repr

/-- The members of a `source_buffer` (all inherited from `text_in_buffer`). -/
structure source_buffer where
  file : wifstream
  file_name_ : List Nat
  text : List Nat
  p_char : pointer
deriving DecidableEq, Repr

/-- A source buffer together with the variables it shares with the rest of the
compiler. -/
structure state where
  g : globals
  b : source_buffer
deriving DecidableEq, Repr

/-- Why a call has no result: it read `*p_char` where the read has no defined
value (outside of the array `text`, or through the pointer to the one-byte
constant `EOF_CHAR`), or its loop never ends. -/
inductive fault where
  | bad_pointer
  | no_termination
deriving DecidableEq, Repr

/-- The abort codes of `error.h`, which is not among the sources: the one the
source buffer uses, and the other codes of the compiler. -/
inductive abort_code where
  | ABORT_SOURCE_FILE_OPEN_FAILED
  | other (code : Int)
deriving DecidableEq, Repr

/-- How the construction of a source buffer ends: the translation is aborted
with a code (the variables are those at the abort), the first `get_line` has
no result, or the buffer is ready. -/
inductive constructed where
  | aborted (ac : abort_code) (g : globals)
  | failed (e : fault)
  | ready (s : state)
deriving DecidableEq, Repr

/-- Modelled from the spec: `abort_translation` is defined outside of the
sources. By sections 4.1 and 6 it ends the whole compilation with the abort
code it is given; nothing of the constructor runs after it. -/
def abort_translation (ac : abort_code) (g : globals) : constructed := .aborted ac g

/-- The pointer moved by `d` characters. -/
def pointer.add (p : pointer) (d : Int) : pointer :=
  match p with
  | .into_text i => .into_text (i + d)
  | .to_eof_char k => .to_eof_char (k + d)

/-- The value of `*p_char`, a `wchar_t` read: the cell when the pointer is
inside the array `text`. Through `(wchar_t *)&buffer::EOF_CHAR` the read covers
`sizeof(wchar_t)` bytes of an object of one byte (`const char EOF_CHAR`) and
has no defined value, like every other read outside of `text`. -/
def source_buffer.deref (b : source_buffer) : Option Nat :=
  match b.p_char with
  | .into_text i => if 0 ≤ i then b.text[i.toNat]? else none
  | .to_eof_char _ => none

/-- The state in which `get_line` reads `*p_char` on its end-of-file branch, after
`p_char = (wchar_t *)&buffer::EOF_CHAR; file.close();` and
`buffer::input_position = 0`. -/
def at_end_of_file (s : state) : state where
  g := { s.g with input_position := 0 }
  b := { s.b with p_char := .to_eof_char 0, file := s.b.file.close }

/-- The loop of `get_line`, entered with the blanked array:
`while (!wcscmp(text, L"\0")) { getline; if (eof) break; ++current_line_number; }`.
The string compares equal to the empty string when its first character is
null. The first argument bounds the number of iterations; `none` is a loop
that did not end within it. -/
def read_lines (cap : Nat) : Nat → wifstream → List Nat → Int → Option (wifstream × List Nat × Int)
  | 0, _, _, _ => none
  | fuel + 1, f, a, ln =>
    let r := f.getline a cap
    if r.2.eofbit then some (r.2, r.1, ln)
    else if r.1.headD 0 = 0 then read_lines cap fuel r.2 r.1 (ln + 1)
    else some (r.2, r.1, ln + 1)

/-- The listing step of `get_line`: the line read is handed to `list.wbuffer`
with the line number and the nesting level, and printed with `list.put_line`
when `list_flag` is set. The result is the listing buffer and the output. -/
def list_line (g : globals) (a : List Nat) (ln : Int) : list_buffer × List printed :=
  let l := g.list.wbuffer a ln g.current_nesting_level
  if g.list_flag then l.put_line g.wcout else (l, g.wcout)

/-- The function `source_buffer::get_line`; on both branches it ends with
`buffer::input_position = 0; return *p_char;`. Every iteration of its loop that
is followed by another one has extracted a newline, so a loop that ends at
all ends within `rest.length + 1` iterations. -/
def get_line (cap : Nat) (s : state) : Except fault (Nat × state) :=
  if s.b.file.eofbit then
    match (at_end_of_file s).b.deref with
    | none => .error .bad_pointer
    | some ch => .ok (ch, at_end_of_file s)
  else
    match read_lines cap (s.b.file.rest.length + 1) s.b.file (List.replicate cap 0)
        s.g.current_line_number with
    | none => .error .no_termination
    | some (f, a, ln) =>
      let p := list_line s.g a ln
      let b : source_buffer := { s.b with file := f, text := a, p_char := .into_text 0 }
      match b.deref with
      | none => .error .bad_pointer
      | some ch =>
        .ok (ch,
          { g := { s.g with
                    current_line_number := ln
                    list := p.1
                    wcout := p.2
                    input_position := 0 }
            b := b })

/-- The tab adjustment at the end of `get_char`:
`if (ch == L'\t') input_position += tab_size - input_position % tab_size`. -/
def tab_adjust (ch : Nat) (s : state) : state :=
  if ch = 9 then
    { s with g := { s.g with
        input_position :=
          s.g.input_position + (tab_size - Int.tmod s.g.input_position tab_size) } }
  else s

/-- The function `text_in_buffer::get_char`. -/
def get_char (cap : Nat) (s : state) : Except fault (Nat × state) :=
  match s.b.deref with
  | none => .error .bad_pointer
  | some c =>
    if c = buffer.EOF_CHAR then .ok (buffer.EOF_CHAR, s)
    else if c = 0 then
      match get_line cap s with
      | .error e => .error e
      | .ok (ch, s1) => .ok (ch, tab_adjust ch s1)
    else
      let s1 : state :=
        { g := { s.g with input_position := s.g.input_position + 1 }
          b := { s.b with p_char := s.b.p_char.add 1 } }
      match s1.b.deref with
      | none => .error .bad_pointer
      | some ch => .ok (ch, tab_adjust ch s1)

/-- The function `text_in_buffer::put_back_char`: both decrements always
happen; the character returned is `none` when the pointer has left `text`. -/
def put_back_char (s : state) : Option Nat × state :=
  let s1 : state :=
    { g := { s.g with input_position := s.g.input_position - 1 }
      b := { s.b with p_char := s.b.p_char.add (-1) } }
  (s1.b.deref, s1)

/-- The state in which the constructor calls `get_line`: the file is open and the
listing was initialized when `list_flag` is set. The constructor sets neither
`text` nor `p_char`; they are taken blank and at the cell 0, and `get_line`
sets both before `get_char` reads them. -/
def source_buffer.entered (cap : Nat) (g0 : globals) (source_file_name : List Nat)
    (file : wifstream) : state where
  g := if g0.list_flag then { g0 with list := list_buffer.initialize g0.list source_file_name } else g0
  b := { file := file, file_name_ := source_file_name,
         text := List.replicate cap 0, p_char := .into_text 0 }

/-- The constructor `source_buffer::source_buffer`, from the variables `g0` and
the file found under the name. The base constructor opens the file; when the
stream is not good it prints the name with the reason and aborts with
`ABORT_SOURCE_FILE_OPEN_FAILED`. Otherwise the listing is initialized when
`list_flag` is set and the first line is read. -/
def source_buffer.construct (cap : Nat) (g0 : globals) (source_file_name : List Nat)
    (content : Option (List Nat)) : constructed :=
  let file := wifstream.open content
  if file.eofbit || file.failbit then
    abort_translation .ABORT_SOURCE_FILE_OPEN_FAILED
      { g0 with wcout := g0.wcout ++ [.open_failed source_file_name] }
  else
    match get_line cap (source_buffer.entered cap g0 source_file_name file) with
    | .error e => .failed e
    | .ok (_, s1) => .ready s1

/-! ## Sequences of calls -/

/-- The two calls a scanner makes on a buffer. -/
inductive call where
  | get
  | put_back
deriving DecidableEq, Repr

/-- A sequence of calls made one after the other: for every call the character
it returned (`none` for a read outside of `text`) and the state it left. The
sequence stops at a `get_char` that has no result. -/
def run (cap : Nat) : List call → state → List (Option Nat × state)
  | [], _ => []
  | .get :: cs, s =>
    match get_char cap s with
    | .error _ => []
    | .ok (ch, s1) => (some ch, s1) :: run cap cs s1
  | .put_back :: cs, s => put_back_char s :: run cap cs (put_back_char s).2

/-- The characters returned by a sequence of calls. -/
def returned (r : List (Option Nat × state)) : List (Option Nat) := r.map (fun x => x.1)

/-- The values of `input_position` after the calls of a sequence. -/
def columns (r : List (Option Nat × state)) : List Int := r.map (fun x => x.2.g.input_position)

/-- The values of `current_line_number` after the calls of a sequence. -/
def line_numbers (r : List (Option Nat × state)) : List Int :=
  r.map (fun x => x.2.g.current_line_number)

/-- Whether `get_char` takes its last branch, the one that moves the cursor
inside the line: the cursor is neither at `EOF_CHAR` nor at a null character. -/
def advances (s : state) : Bool :=
  match s.b.deref with
  | none => false
  | some c => c != buffer.EOF_CHAR && c != 0

/-- The variables of `cx::buffer` as they are initialized, for a given
`list_flag` and nesting level. -/
def buffer.startup (list_flag : Bool) (nesting : Int) : globals where
  current_line_number := 0
  input_position := 0
  list_flag := list_flag
  list := { text := [], line_number := 0, nesting_level := 0, source_file_name := [],
            line_count := 0 }
  current_nesting_level := nesting
  wcout := []

/-- The buffer constructed at startup for a file with the given content, with
an input buffer of 256 characters; `none` when the construction does not end
with a buffer. -/
def opened (list_flag : Bool) (content : List Nat) : Option state :=
  match source_buffer.construct 256 (buffer.startup list_flag 0) [102] (some content) with
  | .ready s => some s
  | _ => none

/-- The calls `cs` made on the buffer opened at startup for a file. -/
def session (list_flag : Bool) (content : List Nat) (cs : List call) :
    List (Option Nat × state) :=
  match opened list_flag content with
  | none => []
  | some s => run 256 cs s

/-- A buffer that was never opened, the fallback of `sample`. -/
def unopened : state where
  g := buffer.startup true 0
  b := { file := wifstream.open none, file_name_ := [], text := [], p_char := .into_text 0 }

/-- The state reached from startup (with the listing on) by opening a file and
calling `get_char` `n` times. -/
def sample (content : List Nat) (n : Nat) : state :=
  match opened true content with
  | none => unopened
  | some s =>
    match (run 256 (List.replicate n .get) s).getLast? with
    | none => s
    | some x => x.2

/-- The number `r` is the smallest multiple of `m` strictly greater than `x`. -/
def least_multiple_above (m x r : Int) : Prop :=
  m ∣ r ∧ x < r ∧ ∀ y : Int, m ∣ y → x < y → r ≤ y

/-- The state `get_line` leaves after it read the line `l` with the number `ln`
from a file whose remaining content is then `r`. -/
def line_read (cap : Nat) (s : state) (l r : List Nat) (ln : Int) : state where
  g := { s.g with
          current_line_number := ln
          list := (list_line s.g (write_cstr (List.replicate cap 0) l) ln).1
          wcout := (list_line s.g (write_cstr (List.replicate cap 0) l) ln).2
          input_position := 0 }
  b := { s.b with
          file := { rest := r, eofbit := false, failbit := false, is_open := s.b.file.is_open }
          text := write_cstr (List.replicate cap 0) l
          p_char := .into_text 0 }

/-- Whether every `put_back_char` of a sequence of calls comes immediately
after a `get_char`; the flag tells whether the call before the sequence was
a `get_char`. -/
def put_back_follows_get : Bool → List call → Bool
  | _, [] => true
  | _, .get :: cs => put_back_follows_get true cs
  | prev, .put_back :: cs => prev && put_back_follows_get false cs

/-- Whether every `put_back_char` of a sequence of calls made from the state `s`
comes immediately after a `get_char` that moved the cursor inside the line;
the flag tells whether the call before the sequence was such a `get_char`. -/
def put_back_follows_advance (cap : Nat) : Bool → List call → state → Bool
  | _, [], _ => true
  | _, .get :: cs, s =>
    match get_char cap s with
    | .error _ => true
    | .ok (_, s1) => put_back_follows_advance cap (advances s) cs s1
  | prev, .put_back :: cs, s =>
    prev && put_back_follows_advance cap false cs (put_back_char s).2

/-- The buffer holds no character `EOF_CHAR` of its own: there is none in the
array `text` nor in the part of the file still to be read, the stream has
`eofbit` only once nothing is left to read, and the cursor is in `text` or,
once `eofbit` is set, at the constant `EOF_CHAR`. -/
def sentinel_free (s : state) : Prop :=
  (∀ x ∈ s.b.text, x ≠ buffer.EOF_CHAR) ∧
  (∀ x ∈ s.b.file.rest, x ≠ buffer.EOF_CHAR) ∧
  (s.b.file.eofbit = true → s.b.file.rest = []) ∧
  (∀ k, s.b.p_char = .to_eof_char k → k = 0 ∧ s.b.file.eofbit = true)

/-- The content of the file whose physical lines are `ls`, each ended by a
newline. -/
def unlines : List (List Nat) → List Nat
  | [] => []
  | l :: ls => l ++ 10 :: unlines ls

/-- The state left by `n` calls of `get_char` made one after the other; `none`
when one of them has no result. -/
def get_chars (cap : Nat) : Nat → state → Option state
  | 0, s => some s
  | n + 1, s =>
    match get_char cap s with
    | .error _ => none
    | .ok (_, s1) => get_chars cap n s1

/-- The listing line of the physical line `l` with the number `n` at the nesting
level `nest`: its text cut at the print width. -/
def listed (nest : Int) (l : List Nat) (n : Int) : printed :=
  .line { text := l.take buffer.max_printline_length, line_number := n, nesting_level := nest }

/-- The listing lines of the physical lines `ls` that follow the line number
`ln`: one for every line that is not empty, with its physical line number. -/
def listing (nest : Int) : Int → List (List Nat) → List printed
  | _, [] => []
  | ln, [] :: ls => listing nest (ln + 1) ls
  | ln, (c :: l) :: ls => listed nest (c :: l) (ln + 1) :: listing nest (ln + 1) ls

/-- A physical line the buffer handles in full: it fits the input buffer and
holds no newline, no null character and no character `EOF_CHAR`. -/
def plain_line (cap : Nat) (l : List Nat) : Prop :=
  l.length < cap ∧ ∀ x ∈ l, x ≠ 10 ∧ x ≠ 0 ∧ x ≠ buffer.EOF_CHAR

/-- The stream is good with the lines `ls` left to read, the listing is on, and
the output, `line_count`, `current_line_number` and the nesting level are
`w`, `lc`, `ln` and `nest`. -/
def reading (s : state) (ls : List (List Nat)) (w : List printed) (lc ln nest : Int) : Prop :=
  s.b.file.eofbit = false ∧ s.b.file.failbit = false ∧ s.b.file.rest = unlines ls ∧
  s.g.list_flag = true ∧ s.g.wcout = w ∧ s.g.list.line_count = lc ∧
  s.g.current_line_number = ln ∧ s.g.current_nesting_level = nest

/-- The array `text` holds the line `l` with its terminator and the cursor is at
its cell `i`. -/
def in_line (s : state) (l : List Nat) (i : Nat) : Prop :=
  (∃ z, s.b.text = l ++ 0 :: z) ∧ s.b.p_char = .into_text i ∧ i ≤ l.length

/-- The state reached by constructing, from the variables of `sample outer n`,
a further source buffer for a nested file with the content `inner`. -/
def sample_nested (outer : List Nat) (n : Nat) (inner : List Nat) : state :=
  match source_buffer.construct 256 (sample outer n).g [103] (some inner) with
  | .ready s => s
  | _ => unopened

/-- The state in which the constructor, at startup, calls `get_line` for a file
with the given content. -/
def entry (list_flag : Bool) (content : List Nat) : state :=
  source_buffer.entered 256 (buffer.startup list_flag 0) [102] (wifstream.open (some content))

/-- Two states agree on what the scan sees: the members of the buffer,
`input_position` and `current_line_number`. They may differ in `list_flag`,
the listing buffer and the output. -/
def same_scan (s t : state) : Prop :=
  s.b = t.b ∧ s.g.input_position = t.g.input_position ∧
  s.g.current_line_number = t.g.current_line_number

/-- The physical lines of a file content: the runs of characters between the
newlines; the run behind the last newline is a line when it is not empty. -/
def physical_lines : List Nat → List (List Nat)
  | [] => []
  | c :: r =>
    if c = 10 then [] :: physical_lines r
    else
      match physical_lines r with
      | [] => [[c]]
      | l :: ls => (c :: l) :: ls

/-- A stream that `get_line` can go on reading: `failbit` is set only together
with `eofbit`, `eofbit` only when nothing is left, and every physical line
left fits the input buffer. -/
def readable (cap : Nat) (f : wifstream) : Prop :=
  (f.eofbit = false → f.failbit = false) ∧ (f.eofbit = true → f.rest = []) ∧
  ∀ l ∈ physical_lines f.rest, l.length < cap

/-- The number of characters in front of the cursor that `get_char` can move
over: those before the next null character or `EOF_CHAR` in `text`. -/
def run_ahead (s : state) : Nat :=
  match s.b.p_char with
  | .into_text i =>
    ((s.b.text.drop i.toNat).takeWhile (fun c => c != 0 && c != buffer.EOF_CHAR)).length
  | .to_eof_char _ => 0

/-- A bound on the calls of `get_char` that still have a result: the characters
ahead in the line, the characters left in the file, and one for the read
that meets the end of the file. -/
def remaining (s : state) : Nat :=
  run_ahead s + s.b.file.rest.length + (if s.b.file.eofbit then 0 else 1)

/-- The buffer is scanning a line: the stream is readable, the cursor is in
`text` and a null character lies at the cursor or behind it. -/
def scanning (cap : Nat) (s : state) : Prop :=
  readable cap s.b.file ∧ ∃ i : Nat, s.b.p_char = .into_text i ∧ 0 ∈ s.b.text.drop i

/-! ## Properties -/

/-! ### The cursor inside a line -/

/-- Moving a pointer forth and back by one character gives the pointer again. -/
theorem pointer_add_cancel (p : pointer) : (p.add 1).add (-1) = p := by
  cases p <;> simp [pointer.add]

/-- The tab adjustment leaves the members of the buffer alone. -/
theorem tab_adjust_b (ch : Nat) (s : state) : (tab_adjust ch s).b = s.b := by
  unfold tab_adjust
  split <;> rfl

/-- The condition under which `get_char` takes its last branch. -/
theorem advances_iff (s : state) :
    advances s = true ↔ ∃ c, s.b.deref = some c ∧ c ≠ buffer.EOF_CHAR ∧ c ≠ 0 := by
  unfold advances
  cases h : s.b.deref with
  | none => simp
  | some c => simp

/-- The last branch of `get_char`: the cursor moves one cell, the column grows
by one, and the character there is returned after the tab adjustment. -/
theorem get_char_of_advances (cap : Nat) (s : state) (h : advances s = true) :
    get_char cap s =
      match ({ s.b with p_char := s.b.p_char.add 1 } : source_buffer).deref with
      | none => .error .bad_pointer
      | some ch =>
        .ok (ch, tab_adjust ch
          { g := { s.g with input_position := s.g.input_position + 1 }
            b := { s.b with p_char := s.b.p_char.add 1 } }) := by
  obtain ⟨c, hc, h1, h2⟩ := (advances_iff s).1 h
  unfold get_char
  simp only [hc, h1, h2, if_false]

/-- A `get_char` that has a result from a state in which it moves inside the
line: what it returns and the state it leaves. -/
theorem get_char_advances_ok (cap : Nat) (s s1 : state) (c : Nat) (h : advances s = true)
    (hg : get_char cap s = .ok (c, s1)) :
    ({ s.b with p_char := s.b.p_char.add 1 } : source_buffer).deref = some c ∧
    s1 = tab_adjust c
      { g := { s.g with input_position := s.g.input_position + 1 }
        b := { s.b with p_char := s.b.p_char.add 1 } } := by
  rw [get_char_of_advances cap s h] at hg
  revert hg
  cases hd : ({ s.b with p_char := s.b.p_char.add 1 } : source_buffer).deref with
  | none => simp [hd]
  | some ch =>
    simp only [hd]
    intro hg
    injection hg with hg
    injection hg with h1 h2
    subst h1
    exact ⟨rfl, h2.symm⟩

/-- The second branch of `get_char`, at a null character: the result of
`get_line` after the tab adjustment. -/
theorem get_char_of_null (cap : Nat) (s s0 : state) (c : Nat) (h : s.b.deref = some 0)
    (hl : get_line cap s = .ok (c, s0)) : get_char cap s = .ok (c, tab_adjust c s0) := by
  unfold get_char
  simp only [h, buffer.EOF_CHAR]
  rw [if_neg (by decide), if_pos trivial, hl]

/-- A `get_char` that has a result at a null character got it from `get_line`. -/
theorem get_char_null_ok (cap : Nat) (s s1 : state) (c : Nat) (h : s.b.deref = some 0)
    (hg : get_char cap s = .ok (c, s1)) :
    ∃ s0, get_line cap s = .ok (c, s0) ∧ s1 = tab_adjust c s0 := by
  cases hl : get_line cap s with
  | error e =>
    unfold get_char at hg
    simp only [h, buffer.EOF_CHAR] at hg
    rw [if_neg (by decide), if_pos trivial, hl] at hg
    cases hg
  | ok r =>
    obtain ⟨ch, s0⟩ := r
    rw [get_char_of_null cap s s0 ch h hl] at hg
    injection hg with hg
    injection hg with h1 h2
    subst h1
    exact ⟨s0, rfl, h2.symm⟩

/-- The first branch of `get_char`, at the end-of-file character. -/
theorem get_char_of_eof_char (cap : Nat) (s : state) (h : s.b.deref = some buffer.EOF_CHAR) :
    get_char cap s = .ok (buffer.EOF_CHAR, s) := by
  unfold get_char
  simp only [h]
  rw [if_pos trivial]

/-- At the end of the file `get_line` has no result: it reads `*p_char` through
the pointer to the constant `EOF_CHAR`. -/
theorem get_line_of_eofbit (cap : Nat) (s : state) (h : s.b.file.eofbit = true) :
    get_line cap s = .error .bad_pointer := by
  unfold get_line
  rw [if_pos h]
  rfl

/-- A `get_line` that has a result found the stream before the end of the file. -/
theorem get_line_ok_eofbit (cap : Nat) (s : state) (r : Nat × state)
    (h : get_line cap s = .ok r) : s.b.file.eofbit = false := by
  cases he : s.b.file.eofbit with
  | false => rfl
  | true =>
    rw [get_line_of_eofbit cap s he] at h
    cases h

/-! ### Putting a character back -/

/-- C1, as stated, fails: on the file `ab` the calls `get_char`,
`put_back_char`, `get_char` return `b`, `a`, `b`; the character returned by
`put_back_char` is not the one `get_char` returned. -/
theorem put_back_char_returns_other_char :
    returned (session false [97, 98, 10] [.get, .put_back, .get]) =
      [some 98, some 97, some 98] ∧ (some 98 : Option Nat) ≠ some 97 := by
  set_option maxRecDepth 100000 in
  decide

/-- C1, amended: when `get_char` moves inside the current line and returns `c`,
the following `put_back_char` returns the previous character, the one the
cursor was at before that `get_char`, puts the cursor back there, and the
next `get_char` returns `c` again. -/
theorem put_back_char_then_get_char (cap : Nat) (s s1 : state) (c : Nat)
    (h : advances s = true) (hg : get_char cap s = .ok (c, s1)) :
    (put_back_char s1).1 = s.b.deref ∧ (put_back_char s1).2.b = s.b ∧
    ∃ s3, get_char cap (put_back_char s1).2 = .ok (c, s3) := by
  obtain ⟨hd, hs1⟩ := get_char_advances_ok cap s s1 c h hg
  have hb : (put_back_char s1).2.b = s.b := by
    subst hs1
    simp [put_back_char, tab_adjust_b, pointer_add_cancel]
  have hadv : advances (put_back_char s1).2 = true := by
    unfold advances
    rw [hb]
    exact h
  refine ⟨?_, hb, ?_⟩
  · show (put_back_char s1).2.b.deref = s.b.deref
    rw [hb]
  · rw [get_char_of_advances cap _ hadv, hb, hd]
    exact ⟨_, rfl⟩

/-- The amended C1 at the start of the file `ab`. -/
theorem put_back_char_then_get_char_witness :
    (put_back_char (sample [97, 98, 10] 1)).1 = (sample [97, 98, 10] 0).b.deref ∧
    (put_back_char (sample [97, 98, 10] 1)).2.b = (sample [97, 98, 10] 0).b ∧
    ∃ s3, get_char 256 (put_back_char (sample [97, 98, 10] 1)).2 = .ok (98, s3) :=
  put_back_char_then_get_char 256 (sample [97, 98, 10] 0) (sample [97, 98, 10] 1) 98
    (by set_option maxRecDepth 100000 in decide)
    (by set_option maxRecDepth 100000 in rfl)

/-! ### Tab stops -/

/-- The column left by `get_line` is 0. -/
theorem get_line_input_position (cap : Nat) (s s0 : state) (ch : Nat)
    (h : get_line cap s = .ok (ch, s0)) : s0.g.input_position = 0 := by
  have he := get_line_ok_eofbit cap s _ h
  unfold get_line at h
  split at h
  · simp_all
  · split at h
    · cases h
    · dsimp only at h
      split at h
      · cases h
      · injection h with h
        injection h with _ h2
        rw [← h2]

/-- The tab adjustment from a column that is not negative. -/
theorem tab_adjust_column (s : state) (h : 0 ≤ s.g.input_position) :
    least_multiple_above tab_size s.g.input_position (tab_adjust 9 s).g.input_position := by
  have e : (tab_adjust 9 s).g.input_position =
      s.g.input_position + (8 - s.g.input_position % 8) := by
    simp only [tab_adjust, if_true, tab_size]
    rw [Int.tmod_eq_emod h (by decide)]
  rw [e]
  refine ⟨?_, ?_, ?_⟩
  · show (8 : Int) ∣ _
    omega
  · omega
  · intro y hy hlt
    have hy8 : (8 : Int) ∣ y := hy
    omega

/-- C2, as stated, fails: in the line `abcdefgh` followed by a tab, the tab is
returned by the `get_char` that finds `input_position` at 7 and leaves it at
16, while the smallest multiple of 8 above 7 is 8. -/
theorem tab_from_column_seven :
    returned (session false [97, 98, 99, 100, 101, 102, 103, 104, 9, 88, 10]
      (List.replicate 8 .get)) =
      [some 98, some 99, some 100, some 101, some 102, some 103, some 104, some 9] ∧
    columns (session false [97, 98, 99, 100, 101, 102, 103, 104, 9, 88, 10]
      (List.replicate 8 .get)) = [1, 2, 3, 4, 5, 6, 7, 16] ∧
    ¬ least_multiple_above 8 7 16 := by
  refine ⟨by set_option maxRecDepth 100000 in decide,
    by set_option maxRecDepth 100000 in decide, ?_⟩
  intro h
  have := h.2.2 8 (dvd_refl 8) (by decide)
  omega

/-- C2, amended: when `get_char` returns a tab, `input_position` ends at the
smallest multiple of 8 strictly greater than the column the tab itself is
fetched at. That column is `v + 1` for a tab reached inside the line from the
column `v` (`v` at least -1), and 0 for a tab that is the first character of
a newly read line, which therefore ends at 8. -/
theorem tab_column (cap : Nat) (s s1 : state) (hg : get_char cap s = .ok (9, s1)) :
    (s.b.deref = some 0 → s1.g.input_position = 8) ∧
    (s.b.deref ≠ some 0 → -1 ≤ s.g.input_position →
      least_multiple_above tab_size (s.g.input_position + 1) s1.g.input_position) := by
  constructor
  · intro h0
    obtain ⟨s0, hl, h2⟩ := get_char_null_ok cap s s1 9 h0 hg
    have hz := get_line_input_position cap s s0 9 hl
    have := tab_adjust_column s0 (by omega)
    rw [h2]
    rw [hz] at this
    obtain ⟨h8, hpos, hmin⟩ := this
    have := hmin 8 (dvd_refl _) (by decide)
    have h8' : (8 : Int) ∣ (tab_adjust 9 s0).g.input_position := h8
    omega
  · intro hne hv
    have hadv : advances s = true := by
      rw [advances_iff]
      unfold get_char at hg
      cases hd : s.b.deref with
      | none => simp [hd] at hg
      | some c =>
        refine ⟨c, rfl, ?_, ?_⟩
        · intro hc
          simp [hd, hc, buffer.EOF_CHAR] at hg
        · intro hc
          exact hne (by rw [hd, hc])
    obtain ⟨_, hs1⟩ := get_char_advances_ok cap s s1 9 hadv hg
    rw [hs1]
    exact tab_adjust_column _ (by show 0 ≤ s.g.input_position + 1; omega)

/-- The amended C2 at the tab of the line `abc`, tab, `X`: fetched inside the
line from the column 2, it leaves the column at the smallest multiple of 8
above 3. -/
theorem tab_column_witness :
    least_multiple_above tab_size ((sample [97, 98, 99, 9, 88, 10] 2).g.input_position + 1)
      (sample [97, 98, 99, 9, 88, 10] 3).g.input_position :=
  (tab_column 256 (sample [97, 98, 99, 9, 88, 10] 2) (sample [97, 98, 99, 9, 88, 10] 3)
    (by set_option maxRecDepth 100000 in rfl)).2
    (by set_option maxRecDepth 100000 in decide)
    (by set_option maxRecDepth 100000 in decide)

/-! ### End of file -/

/-- C3, on the code: at the end of the file `get_line` stores the pointer
`(wchar_t *)&buffer::EOF_CHAR` and reads `*p_char` through it, and so does every
`get_char` made in the state it leaves. The read covers `sizeof(wchar_t)` bytes
of a constant of one byte and has no defined value: neither call returns
`EOF_CHAR`, neither has a result, and no sequence of further `get_char` calls
returns anything. -/
theorem get_char_after_end_of_file (cap : Nat) (s : state) :
    (s.b.file.eofbit = true → get_line cap s = .error .bad_pointer) ∧
    (at_end_of_file s).b.p_char = .to_eof_char 0 ∧
    (at_end_of_file s).b.deref = none ∧
    get_char cap (at_end_of_file s) = .error .bad_pointer ∧
    ∀ n, run cap (List.replicate n .get) (at_end_of_file s) = [] := by
  refine ⟨get_line_of_eofbit cap s, rfl, rfl, rfl, ?_⟩
  intro n
  cases n with
  | zero => rfl
  | succ n => rfl

/-- C3 on the code, at the empty file: the constructor met the end of the
file, and the `get_line` of the first `get_char` reads through the pointer to
the constant. -/
theorem get_char_after_end_of_file_witness :
    (sample [] 0).b.file.eofbit = true ∧
    get_line 256 (sample [] 0) = .error .bad_pointer ∧
    get_char 256 (at_end_of_file (sample [] 0)) = .error .bad_pointer ∧
    run 256 (List.replicate 3 .get) (at_end_of_file (sample [] 0)) = [] :=
  ⟨by set_option maxRecDepth 100000 in decide,
    (get_char_after_end_of_file 256 (sample [] 0)).1 (by set_option maxRecDepth 100000 in decide),
    (get_char_after_end_of_file 256 (sample [] 0)).2.2.2.1,
    (get_char_after_end_of_file 256 (sample [] 0)).2.2.2.2 3⟩

/-- C8, on the code: for a file of length zero the construction succeeds and
leaves the cursor on the null character of the blank array with `eofbit` set;
the very first `get_char` calls `get_line`, which reads `*p_char` through
`(wchar_t *)&buffer::EOF_CHAR`: the call does not return `EOF_CHAR`, it has no
result. -/
theorem zero_length_file_first_get_char (cap : Nat) (hcap : 0 < cap) (g0 : globals)
    (name : List Nat) :
    ∃ s, source_buffer.construct cap g0 name (some []) = .ready s ∧
      s.b.deref = some 0 ∧ s.b.file.eofbit = true ∧
      get_char cap s = .error .bad_pointer := by
  obtain ⟨m, rfl⟩ : ∃ m, cap = m + 1 := ⟨cap - 1, by omega⟩
  simp [source_buffer.construct, source_buffer.entered, wifstream.open, get_line, read_lines,
    wifstream.getline,
    getline_extract, write_cstr, source_buffer.deref, List.replicate_succ, get_char,
    buffer.EOF_CHAR, at_end_of_file]

/-- C8 on the code with an input buffer of 256 characters, at startup. -/
theorem zero_length_file_first_get_char_witness :
    ∃ s, source_buffer.construct 256 (buffer.startup true 0) [102] (some []) = .ready s ∧
      s.b.deref = some 0 ∧ s.b.file.eofbit = true ∧
      get_char 256 s = .error .bad_pointer :=
  zero_length_file_first_get_char 256 (by decide) (buffer.startup true 0) [102]

/-! ### The two-line scenario -/

/-- C9, as stated, fails: on the file with the lines `abc`, tab, `X` and `Y`,
`get_char` never returns `a`; the characters it returns are `b`, `c`, tab,
`X`, the null terminator and `Y`, at the columns 1, 2, 8, 9, 10 and 0. The
call after `X` returns the terminator, not `Y`, and `Y` is at column 0. -/
theorem two_line_scenario_as_claimed_fails :
    returned (session false [97, 98, 99, 9, 88, 10, 89, 10] (List.replicate 6 .get)) ≠
      [some 97, some 98, some 99, some 9, some 88, some 89] ∧
    columns (session false [97, 98, 99, 9, 88, 10, 89, 10] (List.replicate 6 .get)) ≠
      [1, 2, 3, 8, 9, 1] ∧
    returned (session false [97, 98, 99, 9, 88, 10, 89, 10] (List.replicate 5 .get)) =
      [some 98, some 99, some 9, some 88, some 0] ∧
    columns (session false [97, 98, 99, 9, 88, 10, 89, 10] [.get, .get, .get]) = [1, 2, 8] := by
  set_option maxRecDepth 100000 in
  decide

/-- C9, amended: for the file whose two lines are `abc`, tab, `X` and `Y`
(with or without a newline after `Y`), the construction leaves the cursor at
`a` in column 0; the following calls of `get_char` return `b`, `c`, the tab,
`X`, the null terminator of the line and then, crossing the line boundary,
`Y`; they leave `input_position` at 1, 2, 8, 9, 10 and 0. -/
theorem two_line_scenario :
    (opened false [97, 98, 99, 9, 88, 10, 89, 10]).map (fun s => (s.b.deref, s.g.input_position)) =
      some (some 97, 0) ∧
    returned (session false [97, 98, 99, 9, 88, 10, 89, 10] (List.replicate 6 .get)) =
      [some 98, some 99, some 9, some 88, some 0, some 89] ∧
    columns (session false [97, 98, 99, 9, 88, 10, 89, 10] (List.replicate 6 .get)) =
      [1, 2, 8, 9, 10, 0] ∧
    (opened false [97, 98, 99, 9, 88, 10, 89]).map (fun s => (s.b.deref, s.g.input_position)) =
      some (some 97, 0) ∧
    returned (session false [97, 98, 99, 9, 88, 10, 89] (List.replicate 6 .get)) =
      [some 98, some 99, some 9, some 88, some 0, some 89] ∧
    columns (session false [97, 98, 99, 9, 88, 10, 89] (List.replicate 6 .get)) =
      [1, 2, 8, 9, 10, 0] := by
  set_option maxRecDepth 100000 in
  decide

/-! ### Reading a line -/

/-- The extraction loop on a line that ends with a newline and fits: the line
is stored, the newline is extracted, no state bit is due. -/
theorem getline_extract_line (n : Nat) (l r : List Nat) (k : Nat) (h10 : 10 ∉ l)
    (hk : k + l.length < n) :
    getline_extract n k (l ++ 10 :: r) =
      { stored := l, rest := r, hit_eof := false, hit_delim := true } := by
  induction l generalizing k with
  | nil => simp [getline_extract]
  | cons c l ih =>
    have hc : c ≠ 10 := fun h => h10 (by simp [h])
    have hl : 10 ∉ l := fun h => h10 (by simp [h])
    have hk1 : k + 1 < n := by simp at hk; omega
    have hk2 : k + 1 + l.length < n := by simp at hk; omega
    simp [getline_extract, hc, hk1, ih (k + 1) hl hk2]

/-- The call `getline` on a good stream whose next line ends with a newline and
fits the buffer. -/
theorem getline_line (f : wifstream) (a : List Nat) (n : Nat) (l r : List Nat)
    (he : f.eofbit = false) (hf : f.failbit = false) (hr : f.rest = l ++ 10 :: r)
    (h10 : 10 ∉ l) (hn : l.length < n) :
    f.getline a n =
      (write_cstr a l, { rest := r, eofbit := false, failbit := false, is_open := f.is_open }) := by
  have hpos : 0 < n := by omega
  unfold wifstream.getline
  rw [he, hf, hr, getline_extract_line n l r 0 h10 (by omega)]
  simp [hpos]

/-- Blanking the blank array changes nothing. -/
theorem write_cstr_nil_replicate (cap : Nat) (hcap : 0 < cap) :
    write_cstr (List.replicate cap 0) [] = List.replicate cap 0 := by
  obtain ⟨m, rfl⟩ : ∃ m, cap = m + 1 := ⟨cap - 1, by omega⟩
  simp [write_cstr, List.replicate_succ]

/-- The loop of `get_line` over `k` empty lines followed by a line that is not
empty: the empty lines are read and counted, the next line is stored. -/
theorem read_lines_skip (cap : Nat) (c : Nat) (l r : List Nat) (hc : c ≠ 0)
    (h10 : 10 ∉ c :: l) (hlen : (c :: l).length < cap) (k : Nat) :
    ∀ (fuel : Nat) (f : wifstream) (ln : Int), k < fuel → f.eofbit = false →
      f.failbit = false → f.rest = List.replicate k 10 ++ (c :: l) ++ 10 :: r →
      read_lines cap fuel f (List.replicate cap 0) ln =
        some ({ rest := r, eofbit := false, failbit := false, is_open := f.is_open },
          write_cstr (List.replicate cap 0) (c :: l), ln + k + 1) := by
  have hcap : 0 < cap := by omega
  induction k with
  | zero =>
    intro fuel f ln hfuel he hf hr
    obtain ⟨fuel, rfl⟩ : ∃ m, fuel = m + 1 := ⟨fuel - 1, by omega⟩
    simp only [List.replicate_zero, List.nil_append] at hr
    unfold read_lines
    simp only [getline_line f _ cap (c :: l) r he hf hr h10 hlen]
    simp [write_cstr, hc]
  | succ k ih =>
    intro fuel f ln hfuel he hf hr
    obtain ⟨fuel, rfl⟩ : ∃ m, fuel = m + 1 := ⟨fuel - 1, by omega⟩
    have hr1 : f.rest = [] ++ 10 :: (List.replicate k 10 ++ (c :: l) ++ 10 :: r) := by
      rw [hr, List.replicate_succ]
      simp
    unfold read_lines
    simp only [getline_line f _ cap [] _ he hf hr1 (by simp) hcap]
    rw [write_cstr_nil_replicate cap hcap]
    have hz : (List.replicate cap 0).headD 0 = 0 := by
      cases cap with
      | zero => rfl
      | succ m => rfl
    simp only [hz, if_true, Bool.false_eq_true, if_false]
    rw [ih fuel _ (ln + 1) (by omega) rfl rfl rfl]
    simp only [Nat.cast_add, Nat.cast_one]
    congr 3
    omega

/-- The extraction loop accounts for its input: what it stored, the delimiter it
extracted and what it left add up to what it found. -/
theorem getline_extract_length (n : Nat) (r : List Nat) :
    ∀ k, (getline_extract n k r).rest.length + (getline_extract n k r).stored.length +
      (if (getline_extract n k r).hit_delim then 1 else 0) = r.length := by
  induction r with
  | nil =>
    intro k
    simp [getline_extract]
  | cons c r ih =>
    intro k
    unfold getline_extract
    split
    · simp
    · split
      · have := ih (k + 1)
        simp only [List.length_cons]
        omega
      · simp

/-- On a stream that has `failbit` without `eofbit`, the loop of `get_line` never
ends once the array starts with a null character after a failed `getline`. -/
theorem read_lines_failed (cap : Nat) (fuel : Nat) :
    ∀ (f : wifstream) (a : List Nat) (ln : Int), f.eofbit = false → f.failbit = true →
      (if 0 < cap then write_cstr a [] else a).headD 0 = 0 →
      read_lines cap fuel f a ln = none := by
  induction fuel with
  | zero =>
    intro f a ln _ _ _
    rfl
  | succ fuel ih =>
    intro f a ln he hf hq
    unfold read_lines
    have hg : f.getline a cap = (if 0 < cap then write_cstr a [] else a, f) := by
      cases f
      simp only at he hf
      subst he hf
      simp [wifstream.getline]
    rw [hg]
    simp only [he, Bool.false_eq_true, if_false, hq, if_true]
    apply ih f _ (ln + 1) he hf
    by_cases hc : 0 < cap
    · simp [hc, write_cstr]
    · simpa [hc] using hq

/-- The bound that `get_line` gives to its loop loses nothing: a loop that ends
within some number of iterations ends, with the same result, within any
number above the count of characters left in the file. -/
theorem read_lines_fuel (cap : Nat) (fuel : Nat) :
    ∀ (f : wifstream) (a : List Nat) (ln : Int) (r : wifstream × List Nat × Int),
      read_lines cap fuel f a ln = some r →
      ∀ fuel1, f.rest.length + 1 ≤ fuel1 → read_lines cap fuel1 f a ln = some r := by
  induction fuel with
  | zero =>
    intro f a ln r h
    simp [read_lines] at h
  | succ fuel ih =>
    intro f a ln r h fuel1 hf1
    obtain ⟨m, rfl⟩ : ∃ m, fuel1 = m + 1 := ⟨fuel1 - 1, by omega⟩
    unfold read_lines at h ⊢
    dsimp only at h ⊢
    by_cases he : (f.getline a cap).2.eofbit = true
    · rw [if_pos he] at h ⊢
      exact h
    · rw [if_neg he] at h ⊢
      by_cases hh : (f.getline a cap).1.headD 0 = 0
      · rw [if_pos hh] at h ⊢
        apply ih _ _ _ r h
        by_contra hlt
        have he1 : (f.getline a cap).2.eofbit = false := by simpa using he
        have hfail : (f.getline a cap).2.failbit = true := by
          by_contra hnf
          apply hlt
          unfold wifstream.getline at he1 hnf hh ⊢
          by_cases hgood : (f.eofbit || f.failbit) = true
          · rw [if_pos hgood] at hnf
            exact absurd rfl hnf
          · rw [if_neg hgood] at he1 hnf hh ⊢
            dsimp only at he1 hnf hh ⊢
            have hlen := getline_extract_length cap f.rest 0
            simp only [he1, Bool.not_false, Bool.true_and, Bool.or_eq_true, Bool.and_eq_true,
              Bool.not_eq_true', not_or, not_and, Bool.not_eq_false, List.isEmpty_iff] at hnf
            have hd : (getline_extract cap 0 f.rest).hit_delim = true := by
              by_contra hd
              exact hd hnf.1
            rw [hd] at hlen
            simp only [if_true] at hlen
            omega
        have hq : (if 0 < cap then write_cstr (f.getline a cap).1 [] else (f.getline a cap).1).headD 0
            = 0 := by
          by_cases hc : 0 < cap
          · simp [hc, write_cstr]
          · simpa [hc] using hh
        rw [read_lines_failed cap fuel _ _ _ he1 hfail hq] at h
        cases h
      · rw [if_neg hh] at h ⊢
        exact h

/-- When `get_line` is without result for want of termination, its loop does
not end within any number of iterations. -/
theorem get_line_no_termination (cap : Nat) (s : state)
    (h : get_line cap s = .error .no_termination) (fuel : Nat) :
    read_lines cap fuel s.b.file (List.replicate cap 0) s.g.current_line_number = none := by
  cases hr : read_lines cap fuel s.b.file (List.replicate cap 0) s.g.current_line_number with
  | none => rfl
  | some r =>
    have h1 := read_lines_fuel cap fuel _ _ _ r hr (s.b.file.rest.length + 1) (le_refl _)
    unfold get_line at h
    split at h
    · cases h
    · rw [h1] at h
      dsimp only at h
      split at h <;> cases h

/-- The array after a line was stored in the blank array: the cell `i` holds
the character `i` of the line, and the null terminator comes right behind. -/
theorem write_cstr_getElem (a l : List Nat) (i : Nat) (hi : i ≤ l.length) :
    (write_cstr a l)[i]? = some ((l ++ [0]).getD i 0) := by
  unfold write_cstr
  rcases Nat.lt_or_ge i l.length with h | h
  · rw [List.getElem?_append_left h, List.getD_eq_getElem?_getD,
      List.getElem?_append_left h, List.getElem?_eq_getElem h]
    rfl
  · have e : i = l.length := by omega
    subst e
    rw [List.getElem?_append_right (le_refl _), List.getD_eq_getElem?_getD,
      List.getElem?_append_right (le_refl _)]
    simp

/-- The function `get_line` on a good stream that holds `k` empty lines and then
a line that is not empty, ends with a newline and fits the buffer: it returns
the first character of that line and counts `k + 1` lines. -/
theorem get_line_skip (cap : Nat) (s : state) (c : Nat) (l r : List Nat) (k : Nat)
    (he : s.b.file.eofbit = false) (hf : s.b.file.failbit = false)
    (hr : s.b.file.rest = List.replicate k 10 ++ (c :: l) ++ 10 :: r) (hc : c ≠ 0)
    (h10 : 10 ∉ c :: l) (hlen : (c :: l).length < cap) :
    get_line cap s =
      .ok (c, line_read cap s (c :: l) r (s.g.current_line_number + k + 1)) := by
  unfold get_line
  rw [he]
  simp only [Bool.false_eq_true, if_false]
  rw [read_lines_skip cap c l r hc h10 hlen k _ s.b.file s.g.current_line_number
    (by rw [hr]; simp; omega) he hf hr]
  simp only [source_buffer.deref, le_refl, if_true, Int.toNat_zero]
  rw [write_cstr_getElem _ _ 0 (by simp)]
  rfl

/-- The C string in an array stops at the first null character at the latest. -/
theorem cstr_append_null (l z : List Nat) : cstr (l ++ 0 :: z) = cstr l := by
  induction l with
  | nil => simp [cstr]
  | cons c l ih =>
    unfold cstr at ih ⊢
    by_cases h : c = 0
    · simp [h]
    · simp [List.takeWhile_cons, h, ih]

/-! ### Crossing a line boundary -/

/-- The extraction loop on a line that ends with a newline, of any length: it
does not meet the end of the input, and stores the characters of the line
for which there is room. -/
theorem getline_extract_prefix (n : Nat) (l r : List Nat) (h10 : 10 ∉ l) :
    ∀ k, (getline_extract n k (l ++ 10 :: r)).stored = l.take (n - 1 - k) ∧
      (getline_extract n k (l ++ 10 :: r)).hit_eof = false := by
  induction l with
  | nil =>
    intro k
    simp [getline_extract]
  | cons c l ih =>
    intro k
    have hc : c ≠ 10 := fun h => h10 (by simp [h])
    have hl : 10 ∉ l := fun h => h10 (by simp [h])
    by_cases hk : k + 1 < n
    · obtain ⟨i1, i2⟩ := ih hl (k + 1)
      have e : n - 1 - k = (n - 1 - (k + 1)) + 1 := by omega
      rw [e, List.take_succ_cons]
      simp [getline_extract, hc, hk, i1, i2]
    · have e : n - 1 - k = 0 := by omega
      rw [e]
      simp [getline_extract, hc, hk]

/-- The function `get_line` on a good stream whose next line is not empty and ends
with a newline, whatever its length: it returns the first character of the
line, with the cursor on the cell 0, the column 0 and one line counted; the
array holds the characters of the line for which there is room. -/
theorem get_line_next_line (cap : Nat) (hcap : 2 ≤ cap) (s : state) (c : Nat) (l r : List Nat)
    (he : s.b.file.eofbit = false) (hf : s.b.file.failbit = false)
    (hr : s.b.file.rest = (c :: l) ++ 10 :: r) (hc : c ≠ 0) (h10 : 10 ∉ c :: l) :
    ∃ s0, get_line cap s = .ok (c, s0) ∧ s0.g.input_position = 0 ∧
      s0.b.p_char = .into_text 0 ∧
      s0.b.text = write_cstr (List.replicate cap 0) ((c :: l).take (cap - 1)) ∧
      s0.g.current_line_number = s.g.current_line_number + 1 := by
  obtain ⟨m, rfl⟩ : ∃ m, cap = m + 2 := ⟨cap - 2, by omega⟩
  obtain ⟨i1, i2⟩ := getline_extract_prefix (m + 2) (c :: l) r h10 0
  have e : m + 2 - 1 - 0 = m + 1 := by omega
  rw [e, List.take_succ_cons] at i1
  have e1 : m + 2 - 1 = m + 1 := by omega
  rw [e1, List.take_succ_cons]
  have hg1 : (s.b.file.getline (List.replicate (m + 2) 0) (m + 2)).1 =
      write_cstr (List.replicate (m + 2) 0) (c :: l.take m) := by
    unfold wifstream.getline
    rw [he, hf, hr]
    simp only [Bool.or_self, Bool.false_eq_true, if_false]
    rw [if_pos (by omega), i1]
  have hg2 : (s.b.file.getline (List.replicate (m + 2) 0) (m + 2)).2.eofbit = false := by
    unfold wifstream.getline
    rw [he, hf, hr]
    simp only [Bool.or_self, Bool.false_eq_true, if_false]
    exact i2
  have hrl : read_lines (m + 2) (s.b.file.rest.length + 1) s.b.file (List.replicate (m + 2) 0)
      s.g.current_line_number =
      some ((s.b.file.getline (List.replicate (m + 2) 0) (m + 2)).2,
        write_cstr (List.replicate (m + 2) 0) (c :: l.take m), s.g.current_line_number + 1) := by
    unfold read_lines
    dsimp only
    rw [hg2, hg1]
    simp [write_cstr, hc]
  unfold get_line
  rw [he]
  simp only [Bool.false_eq_true, if_false]
  rw [hrl]
  simp only [source_buffer.deref, le_refl, if_true, Int.toNat_zero]
  rw [write_cstr_getElem _ _ 0 (by simp)]
  exact ⟨_, rfl, rfl, rfl, rfl, rfl⟩

set_option maxRecDepth 1000000 in
/-- C5, as stated, fails: a `get_char` made at the terminator of the first
line `a`, with more physical lines in the file, does not return the first
character of the next line with one line counted. With the lines `a`, empty
and `b` it returns `b`, the first character of the line after the next one,
and takes `current_line_number` from 1 to 3; so it does when the next line
begins with a null character (lines `a`, null `b`, `c`: it returns `c`). With
the lines `a` and `b`, the last one without newline, it returns `b` and
leaves `current_line_number` at 1. And at the terminator of the 255
characters read of a line of 300, where the stream is no longer good, it
has no result although the file holds the rest of the line and the line `b`. -/
theorem line_crossing_over_empty_line :
    (sample [97, 10, 10, 98, 10] 1).b.deref = some 0 ∧
    (sample [97, 10, 10, 98, 10] 1).b.file.rest = [10, 98, 10] ∧
    returned (session true [97, 10, 10, 98, 10] [.get, .get]) = [some 0, some 98] ∧
    line_numbers (session true [97, 10, 10, 98, 10] [.get, .get]) = [1, 3] ∧
    (sample [97, 10, 0, 98, 10, 99, 10] 1).b.deref = some 0 ∧
    (sample [97, 10, 0, 98, 10, 99, 10] 1).b.file.rest = [0, 98, 10, 99, 10] ∧
    returned (session true [97, 10, 0, 98, 10, 99, 10] [.get, .get]) = [some 0, some 99] ∧
    line_numbers (session true [97, 10, 0, 98, 10, 99, 10] [.get, .get]) = [1, 3] ∧
    (sample [97, 10, 98] 1).b.deref = some 0 ∧
    (sample [97, 10, 98] 1).b.file.rest = [98] ∧
    returned (session true [97, 10, 98] [.get, .get]) = [some 0, some 98] ∧
    line_numbers (session true [97, 10, 98] [.get, .get]) = [1, 1] ∧
    (sample (List.replicate 300 97 ++ [10, 98, 10]) 255).b.deref = some 0 ∧
    (sample (List.replicate 300 97 ++ [10, 98, 10]) 255).b.file.rest =
      List.replicate 45 97 ++ [10, 98, 10] ∧
    (sample (List.replicate 300 97 ++ [10, 98, 10]) 255).b.file.failbit = true ∧
    (session true (List.replicate 300 97 ++ [10, 98, 10]) (List.replicate 256 .get)).length =
      255 := by
  decide

/-- C5, amended: when the cursor is at the line terminator, the stream is good
and the next physical line of the file is not empty (its first character `c`
is not null) and ends with a newline, whatever its length, `get_char` returns
`c`, leaves the cursor at the cell 0 of `text` that holds `c`, has
`input_position` reset to 0 before the tab adjustment for `c`, and increments
`current_line_number` by exactly 1. The array `text` (of at least two cells)
holds the characters of the line for which there is room, and a line that
fits has been consumed from the file. -/
theorem line_crossing (cap : Nat) (hcap : 2 ≤ cap) (s : state) (c : Nat) (l r : List Nat)
    (h0 : s.b.deref = some 0) (he : s.b.file.eofbit = false) (hf : s.b.file.failbit = false)
    (hr : s.b.file.rest = (c :: l) ++ 10 :: r) (hc : c ≠ 0) (h10 : 10 ∉ c :: l) :
    ∃ s0 s1, get_line cap s = .ok (c, s0) ∧ s0.g.input_position = 0 ∧
      get_char cap s = .ok (c, s1) ∧ s1 = tab_adjust c s0 ∧
      s1.b.p_char = .into_text 0 ∧ s1.b.deref = some c ∧
      s1.g.current_line_number = s.g.current_line_number + 1 ∧
      s1.b.text = write_cstr (List.replicate cap 0) ((c :: l).take (cap - 1)) ∧
      ((c :: l).length < cap → s1.b.file.rest = r ∧ cstr s1.b.text = cstr (c :: l)) := by
  obtain ⟨s0, hl, hip, hp, ht, hln⟩ := get_line_next_line cap hcap s c l r he hf hr hc h10
  have hd : s0.b.deref = some c := by
    obtain ⟨m, rfl⟩ : ∃ m, cap = m + 2 := ⟨cap - 2, by omega⟩
    have e1 : m + 2 - 1 = m + 1 := by omega
    rw [e1, List.take_succ_cons] at ht
    simp only [source_buffer.deref, hp, ht, le_refl, if_true, Int.toNat_zero]
    rw [write_cstr_getElem _ _ 0 (by simp)]
    rfl
  refine ⟨s0, tab_adjust c s0, hl, hip, get_char_of_null cap s s0 c h0 hl, rfl, ?_, ?_, ?_, ?_,
    ?_⟩
  · rw [tab_adjust_b]
    exact hp
  · rw [tab_adjust_b]
    exact hd
  · unfold tab_adjust
    split
    · exact hln
    · exact hln
  · rw [tab_adjust_b]
    exact ht
  · intro hlen
    have hl1 := get_line_skip cap s c l r 0 he hf (by simpa using hr) hc h10 hlen
    rw [hl1] at hl
    injection hl with hl
    injection hl with _ hl
    subst hl
    rw [tab_adjust_b]
    refine ⟨rfl, ?_⟩
    simp only [line_read, write_cstr]
    exact cstr_append_null _ _

set_option maxRecDepth 1000000 in
/-- The amended C5 at the terminator of the first line of the file with the
line `a` and a line of 300 characters `b`, with an input buffer of 256
characters. -/
theorem line_crossing_witness :
    ∃ s0 s1, get_line 256 (sample ([97, 10] ++ List.replicate 300 98 ++ [10]) 1) = .ok (98, s0) ∧
      s0.g.input_position = 0 ∧
      get_char 256 (sample ([97, 10] ++ List.replicate 300 98 ++ [10]) 1) = .ok (98, s1) ∧
      s1 = tab_adjust 98 s0 ∧ s1.b.p_char = .into_text 0 ∧ s1.b.deref = some 98 ∧
      s1.g.current_line_number =
        (sample ([97, 10] ++ List.replicate 300 98 ++ [10]) 1).g.current_line_number + 1 ∧
      s1.b.text = write_cstr (List.replicate 256 0) ((98 :: List.replicate 299 98).take (256 - 1)) ∧
      ((98 :: List.replicate 299 98).length < 256 →
        s1.b.file.rest = [] ∧ cstr s1.b.text = cstr (98 :: List.replicate 299 98)) :=
  line_crossing 256 (by decide) (sample ([97, 10] ++ List.replicate 300 98 ++ [10]) 1) 98
    (List.replicate 299 98) []
    (by decide) (by decide) (by decide) (by decide) (by decide) (by decide)

/-! ### Columns inside a line -/

/-- Reading the array that holds the line `l` and its terminator: the cell `i`
holds the character `i` of the line, the cell behind the line holds null. -/
theorem line_getElem (l z : List Nat) (i : Nat) (hi : i ≤ l.length) :
    (l ++ 0 :: z)[i]? = some ((l ++ [0]).getD i 0) := by
  have h := write_cstr_getElem (List.replicate (l.length + 1) 0 ++ z) l i hi
  unfold write_cstr at h
  rw [← h]
  simp

/-- One `get_char` with the cursor at the cell `i` inside the line `l`, whose
characters are neither null nor `EOF_CHAR`: the cursor moves to the cell
`i + 1` and the character there is returned. -/
theorem get_char_in_line (cap : Nat) (s : state) (l z : List Nat) (i : Nat)
    (ht : s.b.text = l ++ 0 :: z) (hp : s.b.p_char = .into_text i) (hi : i < l.length)
    (hclean : ∀ x ∈ l, x ≠ 0 ∧ x ≠ buffer.EOF_CHAR) :
    get_char cap s =
      .ok ((l ++ [0]).getD (i + 1) 0, tab_adjust ((l ++ [0]).getD (i + 1) 0)
        { g := { s.g with input_position := s.g.input_position + 1 }
          b := { s.b with p_char := .into_text (i + 1) } }) := by
  have hd : s.b.deref = some ((l ++ [0]).getD i 0) := by
    simp only [source_buffer.deref, hp, ht]
    rw [if_pos (by omega)]
    simpa using line_getElem l z i (by omega)
  have hmem : (l ++ [0]).getD i 0 ∈ l := by
    rw [List.getD_eq_getElem?_getD, List.getElem?_append_left hi, List.getElem?_eq_getElem hi]
    exact List.getElem_mem hi
  have hadv : advances s = true := by
    rw [advances_iff]
    exact ⟨_, hd, (hclean _ hmem).2, (hclean _ hmem).1⟩
  rw [get_char_of_advances cap s hadv]
  have hd1 : ({ s.b with p_char := s.b.p_char.add 1 } : source_buffer).deref =
      some ((l ++ [0]).getD (i + 1) 0) := by
    simp only [source_buffer.deref, hp, ht, pointer.add]
    rw [if_pos (by omega)]
    have e : ((i : Int) + 1).toNat = i + 1 := by omega
    rw [e]
    exact line_getElem l z (i + 1) (by omega)
  simp only [hd1]
  simp only [hp, pointer.add]

/-- A character of a line that holds no tab is not a tab, and neither is its
terminator. -/
theorem line_getD_ne_tab (l : List Nat) (h9 : 9 ∉ l) (i : Nat) : (l ++ [0]).getD i 0 ≠ 9 := by
  rw [List.getD_eq_getElem?_getD]
  rcases Nat.lt_or_ge i (l ++ [0]).length with h | h
  · rw [List.getElem?_eq_getElem h]
    have hm : (l ++ [0])[i] ∈ l ++ [0] := List.getElem_mem h
    simp only [List.mem_append, List.mem_singleton] at hm
    rcases hm with hm | hm
    · intro e
      have e1 : (l ++ [0])[i] = 9 := e
      rw [e1] at hm
      exact h9 hm
    · simp [hm]
  · rw [List.getElem?_eq_none h]
    simp

/-- The calls of `get_char` inside a line without tabs, from the cell `i` and the
column `v`: call `j` leaves the column `v + j + 1` and returns the character
of the cell `i + j + 1`. -/
theorem run_in_tab_free_line (cap : Nat) (l z : List Nat)
    (hclean : ∀ x ∈ l, x ≠ 0 ∧ x ≠ buffer.EOF_CHAR) (h9 : 9 ∉ l) (k : Nat) :
    ∀ (s : state) (i : Nat), s.b.text = l ++ 0 :: z → s.b.p_char = .into_text i →
      i + k ≤ l.length →
      columns (run cap (List.replicate k .get) s) =
        (List.range k).map (fun (j : Nat) => s.g.input_position + (j : Int) + 1) ∧
      returned (run cap (List.replicate k .get) s) =
        (List.range k).map (fun j => some ((l ++ [0]).getD (i + j + 1) 0)) := by
  induction k with
  | zero =>
    intro s i _ _ _
    exact ⟨rfl, rfl⟩
  | succ k ih =>
    intro s i ht hp hik
    rw [List.replicate_succ, run, get_char_in_line cap s l z i ht hp (by omega) hclean]
    have hnt : tab_adjust ((l ++ [0]).getD (i + 1) 0)
        { g := { s.g with input_position := s.g.input_position + 1 }
          b := { s.b with p_char := .into_text (i + 1) } } =
        { g := { s.g with input_position := s.g.input_position + 1 }
          b := { s.b with p_char := .into_text (i + 1) } } := by
      unfold tab_adjust
      rw [if_neg (line_getD_ne_tab l h9 (i + 1))]
    simp only [hnt]
    obtain ⟨h1, h2⟩ := ih
      { g := { s.g with input_position := s.g.input_position + 1 }
        b := { s.b with p_char := .into_text (i + 1) } } (i + 1) ht rfl (by omega)
    constructor
    · simp only [columns, List.map_cons] at h1 ⊢
      rw [h1, List.range_succ_eq_map, List.map_cons, List.map_map]
      simp only [Nat.cast_zero, add_zero, List.cons.injEq, true_and]
      apply List.map_congr_left
      intro j _
      simp only [Function.comp, Nat.cast_succ]
      omega
    · simp only [returned, List.map_cons] at h2 ⊢
      rw [h2, List.range_succ_eq_map, List.map_cons, List.map_map]
      simp only [add_zero, List.cons.injEq, true_and]
      apply List.map_congr_left
      intro j _
      simp only [Function.comp]
      have e : i + 1 + j + 1 = i + Nat.succ j + 1 := by omega
      rw [e]

/-- C6, as stated, fails: the lines `a`, DEL, `b` and `a`, NUL, `b` hold no tab,
yet after two calls of `get_char` on the loaded line `input_position` is 1
(the cursor stays on the character 0x7F) and 0 (the null character starts a
line refill), not 2. -/
theorem tab_free_columns_with_del_or_null :
    (sample [97, 127, 98, 10] 0).b.text.take 4 = [97, 127, 98, 0] ∧
    columns (session false [97, 127, 98, 10] [.get, .get]) = [1, 1] ∧
    (sample [97, 0, 98, 10] 0).b.text.take 4 = [97, 0, 98, 0] ∧
    columns (session false [97, 0, 98, 10] [.get, .get]) = [1, 0] := by
  set_option maxRecDepth 100000 in
  decide

/-- C6, amended: for every line that holds no tab, no null character and no
character 0x7F, once the line is loaded (the array `text` holds it with its
terminator, the cursor is at its first cell and `input_position` is 0), every
`k` up to the length of the line has `input_position` equal to `k` after the
`k`-th `get_char`, the calls returning the characters 1 to `k` of the line
(the terminator after the last one). -/
theorem tab_free_columns (cap : Nat) (s : state) (l z : List Nat) (k : Nat)
    (ht : s.b.text = l ++ 0 :: z) (hp : s.b.p_char = .into_text 0)
    (hv : s.g.input_position = 0)
    (hclean : ∀ x ∈ l, x ≠ 9 ∧ x ≠ 0 ∧ x ≠ buffer.EOF_CHAR) (hk : k ≤ l.length) :
    columns (run cap (List.replicate k .get) s) = (List.range k).map (fun (j : Nat) => (j : Int) + 1) ∧
    returned (run cap (List.replicate k .get) s) =
      (List.range k).map (fun j => some ((l ++ [0]).getD (j + 1) 0)) := by
  have h := run_in_tab_free_line cap l z (fun x hx => ⟨(hclean x hx).2.1, (hclean x hx).2.2⟩)
    (fun h => (hclean 9 h).1 rfl) k s 0 ht hp (by omega)
  rw [hv] at h
  simpa using h

/-- The amended C6 on the line `abc` as loaded by the constructor, for `k = 3`. -/
theorem tab_free_columns_witness :
    columns (run 256 (List.replicate 3 .get) (sample [97, 98, 99, 10] 0)) =
      (List.range 3).map (fun (j : Nat) => (j : Int) + 1) ∧
    returned (run 256 (List.replicate 3 .get) (sample [97, 98, 99, 10] 0)) =
      (List.range 3).map (fun j => some (([97, 98, 99] ++ [0]).getD (j + 1) 0)) :=
  tab_free_columns 256 (sample [97, 98, 99, 10] 0) [97, 98, 99] (List.replicate 252 0) 3
    (by set_option maxRecDepth 100000 in decide)
    (by set_option maxRecDepth 100000 in decide)
    (by set_option maxRecDepth 100000 in decide)
    (by decide) (by decide)

/-! ### The column is not negative -/

/-- The tab adjustment does not lower a column that is not negative. -/
theorem tab_adjust_ge (ch : Nat) (s : state) (h : 0 ≤ s.g.input_position) :
    s.g.input_position ≤ (tab_adjust ch s).g.input_position := by
  unfold tab_adjust
  split
  · simp only [tab_size]
    rw [Int.tmod_eq_emod h (by decide)]
    omega
  · exact le_refl _

/-- A `get_char` keeps the column from going negative, and leaves it positive
when it moved the cursor inside the line. -/
theorem get_char_column (cap : Nat) (s s1 : state) (c : Nat) (h : 0 ≤ s.g.input_position)
    (hg : get_char cap s = .ok (c, s1)) :
    0 ≤ s1.g.input_position ∧ (advances s = true → 1 ≤ s1.g.input_position) := by
  cases hd : s.b.deref with
  | none =>
    unfold get_char at hg
    simp [hd] at hg
  | some c0 =>
    by_cases he : c0 = buffer.EOF_CHAR
    · rw [he] at hd
      rw [get_char_of_eof_char cap s hd] at hg
      injection hg with hg
      injection hg with _ h2
      subst h2
      refine ⟨h, fun ha => ?_⟩
      simp [advances, hd] at ha
    · by_cases h0 : c0 = 0
      · rw [h0] at hd
        obtain ⟨s0, hl, h2⟩ := get_char_null_ok cap s s1 c hd hg
        have hz := get_line_input_position cap s s0 c hl
        have := tab_adjust_ge c s0 (by omega)
        rw [h2]
        refine ⟨by omega, fun ha => ?_⟩
        simp [advances, hd] at ha
      · have hadv : advances s = true := (advances_iff s).2 ⟨c0, hd, he, h0⟩
        obtain ⟨_, h2⟩ := get_char_advances_ok cap s s1 c hadv hg
        have := tab_adjust_ge c
          { g := { s.g with input_position := s.g.input_position + 1 }
            b := { s.b with p_char := s.b.p_char.add 1 } }
          (by show 0 ≤ s.g.input_position + 1; omega)
        rw [h2]
        have e : ({ g := { s.g with input_position := s.g.input_position + 1 }
                    b := { s.b with p_char := s.b.p_char.add 1 } } : state).g.input_position =
            s.g.input_position + 1 := rfl
        rw [e] at this
        exact ⟨by omega, fun _ => by omega⟩

/-- The columns of a sequence of calls in which every `put_back_char` follows a
`get_char` that moved inside the line. -/
theorem run_columns_nonneg (cap : Nat) (cs : List call) :
    ∀ (prev : Bool) (s : state), 0 ≤ s.g.input_position →
      (prev = true → 1 ≤ s.g.input_position) →
      put_back_follows_advance cap prev cs s = true →
      ∀ x ∈ run cap cs s, 0 ≤ x.2.g.input_position := by
  induction cs with
  | nil =>
    intro prev s _ _ _ x hx
    simp [run] at hx
  | cons a cs ih =>
    intro prev s h0 h1 hleg x hx
    cases a with
    | get =>
      unfold run at hx
      unfold put_back_follows_advance at hleg
      cases hg : get_char cap s with
      | error e => simp [hg] at hx
      | ok r =>
        obtain ⟨ch, s1⟩ := r
        simp only [hg] at hx hleg
        obtain ⟨hc0, hc1⟩ := get_char_column cap s s1 ch h0 hg
        rcases List.mem_cons.1 hx with hx | hx
        · rw [hx]
          exact hc0
        · exact ih (advances s) s1 hc0 hc1 hleg x hx
    | put_back =>
      unfold run at hx
      unfold put_back_follows_advance at hleg
      simp only [Bool.and_eq_true] at hleg
      have hp : 0 ≤ (put_back_char s).2.g.input_position := by
        have := h1 hleg.1
        show 0 ≤ s.g.input_position - 1
        omega
      rcases List.mem_cons.1 hx with hx | hx
      · rw [hx]
        exact hp
      · exact ih false _ hp (by simp) hleg.2 x hx

/-- A construction that ends with a buffer opened the file and got the buffer
from the first `get_line`. -/
theorem construct_ready (cap : Nat) (g0 : globals) (name : List Nat)
    (content : Option (List Nat)) (s0 : state)
    (h : source_buffer.construct cap g0 name content = .ready s0) :
    ∃ c ch, content = some c ∧
      get_line cap (source_buffer.entered cap g0 name (wifstream.open (some c))) = .ok (ch, s0) := by
  cases content with
  | none => simp [source_buffer.construct, wifstream.open, abort_translation] at h
  | some c =>
    refine ⟨c, ?_⟩
    simp only [source_buffer.construct, wifstream.open, Bool.or_self, Bool.false_eq_true,
      if_false] at h
    cases hl : get_line cap (source_buffer.entered cap g0 name (wifstream.open (some c))) with
    | error e =>
      simp only [wifstream.open] at hl
      rw [hl] at h
      cases h
    | ok r =>
      obtain ⟨ch, s1⟩ := r
      simp only [wifstream.open] at hl
      rw [hl] at h
      injection h with h
      exact ⟨ch, rfl, by rw [h]⟩

/-- The column left by the constructor is 0. -/
theorem construct_input_position (cap : Nat) (g0 : globals) (name : List Nat)
    (content : Option (List Nat)) (s0 : state)
    (h : source_buffer.construct cap g0 name content = .ready s0) :
    s0.g.input_position = 0 := by
  obtain ⟨c, ch, _, hl⟩ := construct_ready cap g0 name content s0 h
  exact get_line_input_position cap _ s0 ch hl

/-- C4, as stated, fails: with every `put_back_char` right after a `get_char`,
`input_position` still reaches -1, after a `get_char` that read a new line
(file with the lines `a` and `b`) and after one that found the cursor on the
end-of-file character (file with the line DEL). -/
theorem put_back_char_after_refill_goes_negative :
    put_back_follows_get false [.get, .get, .put_back] = true ∧
    columns (session false [97, 10, 98, 10] [.get, .get, .put_back]) = [1, 0, -1] ∧
    put_back_follows_get false [.get, .put_back] = true ∧
    columns (session false [127, 10] [.get, .put_back]) = [0, -1] := by
  set_option maxRecDepth 100000 in
  decide

/-- C4, amended: for every source file and every sequence of `get_char` and
`put_back_char` calls after construction in which `put_back_char` is only
called immediately after a `get_char` that moved the cursor inside the
current line (one that neither read a new line nor found the end of the
file), `input_position` is at least 0 after every call. -/
theorem input_position_nonneg (cap : Nat) (g0 : globals) (name : List Nat)
    (content : Option (List Nat)) (s0 : state) (cs : List call)
    (h : source_buffer.construct cap g0 name content = .ready s0)
    (hcs : put_back_follows_advance cap false cs s0 = true) :
    ∀ x ∈ run cap cs s0, 0 ≤ x.2.g.input_position := by
  have h0 := construct_input_position cap g0 name content s0 h
  exact run_columns_nonneg cap cs false s0 (by omega) (by simp) hcs

/-- The amended C4 on the file `abc`, with two put-backs that each follow a
`get_char` inside the line. -/
theorem input_position_nonneg_witness :
    (run 256 [.get, .put_back, .get, .get, .put_back, .get] (sample [97, 98, 99, 10] 0)).all
      (fun x => decide (0 ≤ x.2.g.input_position)) = true :=
  List.all_eq_true.2 (fun x hx => decide_eq_true
    (input_position_nonneg 256 (buffer.startup true 0) [102] (some [97, 98, 99, 10])
      (sample [97, 98, 99, 10] 0) [.get, .put_back, .get, .get, .put_back, .get]
      (by set_option maxRecDepth 100000 in rfl)
      (by set_option maxRecDepth 100000 in decide) x hx))

/-! ### The end-of-file character -/

/-- What the extraction loop stores and leaves comes from its input, and the
input is used up when the loop met its end. -/
theorem getline_extract_mem (n : Nat) (r : List Nat) :
    ∀ k, (∀ x ∈ (getline_extract n k r).stored, x ∈ r) ∧
      (∀ x ∈ (getline_extract n k r).rest, x ∈ r) ∧
      ((getline_extract n k r).hit_eof = true → (getline_extract n k r).rest = []) := by
  induction r with
  | nil =>
    intro k
    simp [getline_extract]
  | cons c r ih =>
    intro k
    unfold getline_extract
    split
    · simp
      intro x hx
      exact Or.inr hx
    · split
      · obtain ⟨h1, h2, h3⟩ := ih (k + 1)
        refine ⟨?_, ?_, h3⟩
        · intro x hx
          rcases List.mem_cons.1 hx with hx | hx
          · exact List.mem_cons.2 (Or.inl hx)
          · exact List.mem_cons.2 (Or.inr (h1 x hx))
        · intro x hx
          exact List.mem_cons.2 (Or.inr (h2 x hx))
      · simp

/-- The cells of the array after a line was stored in it. -/
theorem write_cstr_mem (a st : List Nat) (x : Nat) (h : x ∈ write_cstr a st) :
    x ∈ st ∨ x = 0 ∨ x ∈ a := by
  unfold write_cstr at h
  rcases List.mem_append.1 h with h | h
  · exact Or.inl h
  · rcases List.mem_cons.1 h with h | h
    · exact Or.inr (Or.inl h)
    · exact Or.inr (Or.inr (List.mem_of_mem_drop h))

/-- The call `getline` brings no character `EOF_CHAR` into the array when the
file holds none. -/
theorem getline_sentinel_free (f : wifstream) (a : List Nat) (n : Nat)
    (ha : ∀ x ∈ a, x ≠ buffer.EOF_CHAR) (hr : ∀ x ∈ f.rest, x ≠ buffer.EOF_CHAR)
    (he : f.eofbit = true → f.rest = []) :
    (∀ x ∈ (f.getline a n).1, x ≠ buffer.EOF_CHAR) ∧
    (∀ x ∈ (f.getline a n).2.rest, x ≠ buffer.EOF_CHAR) ∧
    ((f.getline a n).2.eofbit = true → (f.getline a n).2.rest = []) := by
  have hz : (0 : Nat) ≠ buffer.EOF_CHAR := by decide
  unfold wifstream.getline
  split
  · refine ⟨?_, hr, he⟩
    intro x hx
    dsimp only at hx
    split at hx
    · rcases write_cstr_mem a [] x hx with h | h | h
      · simp at h
      · rw [h]
        exact hz
      · exact ha x h
    · exact ha x hx
  · obtain ⟨h1, h2, h3⟩ := getline_extract_mem n f.rest 0
    refine ⟨?_, fun x hx => hr x (h2 x hx), h3⟩
    intro x hx
    dsimp only at hx
    split at hx
    · rcases write_cstr_mem a _ x hx with h | h | h
      · exact hr x (h1 x h)
      · rw [h]
        exact hz
      · exact ha x h
    · exact ha x hx

/-- The loop of `get_line` brings no character `EOF_CHAR` into the array when the
file holds none. -/
theorem read_lines_sentinel_free (cap : Nat) (fuel : Nat) :
    ∀ (f : wifstream) (a : List Nat) (ln : Int) (f1 : wifstream) (a1 : List Nat) (ln1 : Int),
      (∀ x ∈ a, x ≠ buffer.EOF_CHAR) → (∀ x ∈ f.rest, x ≠ buffer.EOF_CHAR) →
      (f.eofbit = true → f.rest = []) →
      read_lines cap fuel f a ln = some (f1, a1, ln1) →
      (∀ x ∈ a1, x ≠ buffer.EOF_CHAR) ∧ (∀ x ∈ f1.rest, x ≠ buffer.EOF_CHAR) ∧
      (f1.eofbit = true → f1.rest = []) := by
  induction fuel with
  | zero =>
    intro f a ln f1 a1 ln1 _ _ _ h
    simp [read_lines] at h
  | succ fuel ih =>
    intro f a ln f1 a1 ln1 ha hr he h
    obtain ⟨g1, g2, g3⟩ := getline_sentinel_free f a cap ha hr he
    unfold read_lines at h
    dsimp only at h
    split at h
    · injection h with h
      injection h with h1 h
      injection h with h2 h3
      subst h1 h2
      exact ⟨g1, g2, g3⟩
    · split at h
      · exact ih _ _ _ f1 a1 ln1 g1 g2 g3 h
      · injection h with h
        injection h with h1 h
        injection h with h2 h3
        subst h1 h2
        exact ⟨g1, g2, g3⟩

/-- Closing the file changes neither what is left to read nor `eofbit`. -/
theorem close_rest_eofbit (f : wifstream) :
    f.close.rest = f.rest ∧ f.close.eofbit = f.eofbit := by
  unfold wifstream.close
  split <;> exact ⟨rfl, rfl⟩

/-- A character read through a cursor that points into `text` is a cell of `text`. -/
theorem deref_into_text_mem (b : source_buffer) (i : Int) (c : Nat)
    (hp : b.p_char = .into_text i) (h : b.deref = some c) : c ∈ b.text := by
  simp only [source_buffer.deref, hp] at h
  split at h
  · exact List.getElem?_mem h
  · cases h

/-- The function `get_line` keeps the buffer free of `EOF_CHAR`, and the character
it returns is not `EOF_CHAR`. -/
theorem get_line_sentinel_free (cap : Nat) (s s1 : state) (ch : Nat) (hs : sentinel_free s)
    (h : get_line cap s = .ok (ch, s1)) :
    sentinel_free s1 ∧ ch ≠ buffer.EOF_CHAR := by
  obtain ⟨ht, hr, he, hp⟩ := hs
  have heof := get_line_ok_eofbit cap s _ h
  unfold get_line at h
  split at h
  · simp_all
  · split at h
    · cases h
    · rename_i f a ln hrl
      dsimp only at h
      split at h
      · cases h
      · rename_i c hd
        injection h with h
        injection h with h1 h2
        subst h1 h2
        obtain ⟨g1, g2, g3⟩ := read_lines_sentinel_free cap _ s.b.file _ _ f a ln
          (by intro x hx; rw [(List.mem_replicate.1 hx).2]; decide) hr he hrl
        refine ⟨⟨g1, g2, g3, ?_⟩, ?_⟩
        · intro k hk
          cases hk
        · intro hc
          exact absurd hc (g1 _ (deref_into_text_mem _ 0 _ rfl hd))

/-- The function `get_char` keeps the buffer free of `EOF_CHAR`, and the character
it returns is not `EOF_CHAR`. -/
theorem get_char_sentinel_free (cap : Nat) (s s1 : state) (ch : Nat) (hs : sentinel_free s)
    (h : get_char cap s = .ok (ch, s1)) :
    sentinel_free s1 ∧ ch ≠ buffer.EOF_CHAR := by
  cases hd : s.b.deref with
  | none =>
    unfold get_char at h
    simp [hd] at h
  | some c0 =>
    cases hpc : s.b.p_char with
    | to_eof_char k =>
      simp [source_buffer.deref, hpc] at hd
    | into_text i =>
      have he : c0 ≠ buffer.EOF_CHAR := hs.1 _ (deref_into_text_mem _ i _ hpc hd)
      by_cases h0 : c0 = 0
      · rw [h0] at hd
        obtain ⟨s0, hl, h2⟩ := get_char_null_ok cap s s1 ch hd h
        obtain ⟨g1, g2⟩ := get_line_sentinel_free cap s s0 ch hs hl
        have hb : s1.b = s0.b := by rw [h2, tab_adjust_b]
        unfold sentinel_free
        rw [hb]
        exact ⟨g1, g2⟩
      · have hadv : advances s = true := (advances_iff s).2 ⟨c0, hd, he, h0⟩
        obtain ⟨hd1, h2⟩ := get_char_advances_ok cap s s1 ch hadv h
        have hb : s1.b = { s.b with p_char := s.b.p_char.add 1 } := by rw [h2, tab_adjust_b]
        obtain ⟨ht, hr, hee, hp⟩ := hs
        have hp1 : s1.b.p_char = .into_text (i + 1) := by rw [hb]; simp [hpc, pointer.add]
        refine ⟨⟨?_, ?_, ?_, ?_⟩, ?_⟩
        · rw [hb]; exact ht
        · rw [hb]; exact hr
        · rw [hb]; exact hee
        · intro k hk
          rw [hp1] at hk
          cases hk
        · intro hc
          have hm : ch ∈ s.b.text :=
            deref_into_text_mem { s.b with p_char := s.b.p_char.add 1 } (i + 1) ch
              (by simp [hpc, pointer.add]) hd1
          exact absurd hc (ht _ hm)

/-- A run of `get_char` calls from a buffer that is free of `EOF_CHAR`: no call
returns `EOF_CHAR`. -/
theorem run_get_sentinel_free (cap : Nat) (n : Nat) :
    ∀ s : state, sentinel_free s → ∀ x ∈ run cap (List.replicate n .get) s,
      sentinel_free x.2 ∧ x.1 ≠ some buffer.EOF_CHAR := by
  induction n with
  | zero =>
    intro s _ x hx
    simp [run] at hx
  | succ n ih =>
    intro s hs x hx
    rw [List.replicate_succ, run] at hx
    cases hg : get_char cap s with
    | error e => simp [hg] at hx
    | ok r =>
      obtain ⟨ch, s1⟩ := r
      simp only [hg] at hx
      obtain ⟨g1, g2⟩ := get_char_sentinel_free cap s s1 ch hs hg
      rcases List.mem_cons.1 hx with hx | hx
      · subst hx
        refine ⟨g1, fun hc => ?_⟩
        injection hc with hc
        exact g2 hc
      · exact ih s1 g1 x hx

/-- The state in which the constructor calls `get_line` is free of `EOF_CHAR`
when the content of the file is. -/
theorem entered_sentinel_free (cap : Nat) (g0 : globals) (name content : List Nat)
    (h127 : buffer.EOF_CHAR ∉ content) :
    sentinel_free (source_buffer.entered cap g0 name (wifstream.open (some content))) := by
  refine ⟨?_, ?_, ?_, ?_⟩
  · intro x hx
    have hx1 : x ∈ List.replicate cap 0 := hx
    rw [(List.mem_replicate.1 hx1).2]
    decide
  · intro x hx e
    have hx1 : x ∈ content := hx
    rw [e] at hx1
    exact h127 hx1
  · intro e
    cases e
  · intro k hk
    cases hk

/-- The C string of a sequence without null character is the sequence. -/
theorem cstr_of_no_null (l : List Nat) (h : ∀ x ∈ l, x ≠ 0) : cstr l = l := by
  unfold cstr
  rw [List.takeWhile_eq_self_iff]
  intro x hx
  simpa using h x hx

/-- The listing step for a line without null character, with the listing on:
the line is printed, cut at the print width, and `line_count` grows by one. -/
theorem list_line_on (g : globals) (l z : List Nat) (ln : Int) (hflag : g.list_flag = true)
    (h0 : ∀ x ∈ l, x ≠ 0) :
    (list_line g (l ++ 0 :: z) ln).2 = g.wcout ++ [listed g.current_nesting_level l ln] ∧
    (list_line g (l ++ 0 :: z) ln).1.line_count = g.list.line_count + 1 := by
  unfold list_line
  simp only [hflag, if_true, list_buffer.put_line, list_buffer.wbuffer, listed]
  rw [cstr_append_null, cstr_of_no_null l h0,
    cstr_of_no_null _ (fun x hx => h0 x (List.mem_of_mem_take hx))]
  simp

/-- The content of a file that begins with `k` empty lines. -/
theorem unlines_blank (k : Nat) (ls : List (List Nat)) :
    unlines (List.replicate k [] ++ ls) = List.replicate k 10 ++ unlines ls := by
  induction k with
  | zero => rfl
  | succ k ih =>
    rw [List.replicate_succ, List.replicate_succ, List.cons_append, unlines, ih]
    rfl

/-- The listing of lines that begin with `k` empty lines. -/
theorem listing_blank (nest : Int) (k : Nat) (ls : List (List Nat)) :
    ∀ ln : Int, listing nest ln (List.replicate k [] ++ ls) = listing nest (ln + k) ls := by
  induction k with
  | zero =>
    intro ln
    simp
  | succ k ih =>
    intro ln
    rw [List.replicate_succ, List.cons_append, listing, ih]
    congr 1
    push_cast
    omega

/-- Lines are `k` empty lines, or `k` empty lines followed by a line that is not
empty and further lines. -/
theorem blank_lines_split (ls : List (List Nat)) :
    (∃ k, ls = List.replicate k []) ∨
    (∃ k c l ls1, ls = List.replicate k [] ++ (c :: l) :: ls1) := by
  induction ls with
  | nil => exact Or.inl ⟨0, rfl⟩
  | cons a ls ih =>
    cases a with
    | nil =>
      rcases ih with ⟨k, hk⟩ | ⟨k, c, l, ls1, hk⟩
      · exact Or.inl ⟨k + 1, by rw [hk]; rfl⟩
      · exact Or.inr ⟨k + 1, c, l, ls1, by rw [hk]; rfl⟩
    | cons c l => exact Or.inr ⟨0, c, l, ls, rfl⟩

/-- The loop of `get_line` over `k` empty lines that end the file: they are read
and counted, and the read that meets the end of the file stores nothing. -/
theorem read_lines_blank_eof (cap : Nat) (hcap : 0 < cap) (k : Nat) :
    ∀ (fuel : Nat) (f : wifstream) (ln : Int), k < fuel → f.eofbit = false →
      f.failbit = false → f.rest = List.replicate k 10 →
      read_lines cap fuel f (List.replicate cap 0) ln =
        some ({ rest := [], eofbit := true, failbit := true, is_open := f.is_open },
          List.replicate cap 0, ln + k) := by
  have hz : (List.replicate cap 0).headD 0 = 0 := by
    cases cap with
    | zero => rfl
    | succ m => rfl
  induction k with
  | zero =>
    intro fuel f ln hfuel he hf hr
    obtain ⟨fuel, rfl⟩ : ∃ m, fuel = m + 1 := ⟨fuel - 1, by omega⟩
    simp only [List.replicate_zero] at hr
    unfold read_lines
    simp [wifstream.getline, he, hf, hr, getline_extract, hcap, write_cstr_nil_replicate cap hcap]
  | succ k ih =>
    intro fuel f ln hfuel he hf hr
    obtain ⟨fuel, rfl⟩ : ∃ m, fuel = m + 1 := ⟨fuel - 1, by omega⟩
    have hr1 : f.rest = [] ++ 10 :: List.replicate k 10 := by
      rw [hr, List.replicate_succ]
      rfl
    unfold read_lines
    simp only [getline_line f _ cap [] _ he hf hr1 (by simp) hcap]
    rw [write_cstr_nil_replicate cap hcap]
    simp only [hz, if_true, Bool.false_eq_true, if_false]
    rw [ih fuel _ (ln + 1) (by omega) rfl rfl rfl]
    simp only [Nat.cast_add, Nat.cast_one]
    congr 3
    omega

/-- The tab adjustment touches nothing but `input_position`. -/
theorem reading_tab_adjust (ch : Nat) (s : state) (ls : List (List Nat)) (w : List printed)
    (lc ln nest : Int) (h : reading s ls w lc ln nest) :
    reading (tab_adjust ch s) ls w lc ln nest := by
  unfold tab_adjust
  split
  · exact h
  · exact h

/-- The tab adjustment leaves the array and the cursor alone. -/
theorem in_line_tab_adjust (ch : Nat) (s : state) (l : List Nat) (i : Nat)
    (h : in_line s l i) : in_line (tab_adjust ch s) l i := by
  unfold in_line
  rw [tab_adjust_b]
  exact h

/-- The function `get_line` with `k` empty lines and then a line that is not
empty left to read: the line is loaded and listed under its physical line
number, and `line_count` grows by one. -/
theorem get_line_reading (cap : Nat) (s : state) (k : Nat) (c : Nat) (l : List Nat)
    (ls1 : List (List Nat)) (w : List printed) (lc ln nest : Int)
    (hr : reading s (List.replicate k [] ++ (c :: l) :: ls1) w lc ln nest)
    (hpl : plain_line cap (c :: l)) :
    ∃ s1, get_line cap s = .ok (c, s1) ∧ c ≠ buffer.EOF_CHAR ∧
      reading s1 ls1 (w ++ [listed nest (c :: l) (ln + k + 1)]) (lc + 1) (ln + k + 1) nest ∧
      in_line s1 (c :: l) 0 := by
  obtain ⟨he, hf, hrest, hflag, hw, hlc, hln, hnest⟩ := hr
  obtain ⟨hlen, hcl⟩ := hpl
  have hc := hcl c (List.mem_cons_self c l)
  have h10 : 10 ∉ c :: l := fun h => (hcl 10 h).1 rfl
  have h0 : ∀ x ∈ c :: l, x ≠ 0 := fun x hx => (hcl x hx).2.1
  rw [unlines_blank, unlines, ← List.append_assoc] at hrest
  have hl := get_line_skip cap s c l (unlines ls1) k he hf hrest hc.2.1 h10 hlen
  rw [hln] at hl
  have hll := list_line_on s.g (c :: l) ((List.replicate cap 0).drop ((c :: l).length + 1))
    (ln + k + 1) hflag h0
  rw [hw, hlc, hnest] at hll
  refine ⟨_, hl, hc.2.2, ⟨rfl, rfl, rfl, hflag, hll.1, hll.2, rfl, hnest⟩, ⟨_, rfl⟩, rfl,
    Nat.zero_le _⟩

/-- The function `get_line` with only `k` empty lines left to read: the read that
meets the end of the file leaves the blank array with the cursor on a null
character and `eofbit` set, after one more listing line. -/
theorem get_line_reading_eof (cap : Nat) (hcap : 0 < cap) (s : state) (k : Nat)
    (w : List printed) (lc ln nest : Int) (hr : reading s (List.replicate k []) w lc ln nest) :
    ∃ s1, get_line cap s = .ok (0, s1) ∧ s1.b.deref = some 0 ∧ s1.b.file.eofbit = true ∧
      s1.g.wcout = w ++ [listed nest [] (ln + k)] ∧ s1.g.list.line_count = lc + 1 := by
  obtain ⟨he, hf, hrest, hflag, hw, hlc, hln, hnest⟩ := hr
  obtain ⟨m, rfl⟩ : ∃ m, cap = m + 1 := ⟨cap - 1, by omega⟩
  have hrest1 : s.b.file.rest = List.replicate k 10 := by
    rw [hrest]
    simpa [unlines] using unlines_blank k []
  have hll := list_line_on s.g [] (List.replicate m 0) (ln + k) hflag (by simp)
  rw [hw, hlc, hnest] at hll
  have key : get_line (m + 1) s =
      .ok (0,
        { g := { s.g with
                  current_line_number := ln + k
                  list := (list_line s.g (List.replicate (m + 1) 0) (ln + k)).1
                  wcout := (list_line s.g (List.replicate (m + 1) 0) (ln + k)).2
                  input_position := 0 }
          b := { s.b with
                  file := { rest := [], eofbit := true, failbit := true,
                            is_open := s.b.file.is_open }
                  text := List.replicate (m + 1) 0
                  p_char := .into_text 0 } }) := by
    unfold get_line
    rw [he]
    simp only [Bool.false_eq_true, if_false]
    rw [read_lines_blank_eof (m + 1) hcap k _ s.b.file s.g.current_line_number
      (by rw [hrest1]; simp) he hf hrest1, hln]
    simp only [source_buffer.deref, le_refl, if_true, Int.toNat_zero, List.replicate_succ,
      List.getElem?_cons_zero]
  refine ⟨_, key, ?_, rfl, hll.1, hll.2⟩
  simp only [source_buffer.deref, le_refl, if_true, Int.toNat_zero, List.replicate_succ,
    List.getElem?_cons_zero]

/-- A character of a line, or its terminator, differs from every character that
is neither null nor in the line. -/
theorem line_getD_ne (l : List Nat) (v : Nat) (hv : v ≠ 0) (h : v ∉ l) (i : Nat) :
    (l ++ [0]).getD i 0 ≠ v := by
  rw [List.getD_eq_getElem?_getD]
  rcases Nat.lt_or_ge i (l ++ [0]).length with hi | hi
  · rw [List.getElem?_eq_getElem hi]
    have hm : (l ++ [0])[i] ∈ l ++ [0] := List.getElem_mem hi
    simp only [List.mem_append, List.mem_singleton] at hm
    rcases hm with hm | hm
    · intro e
      have e1 : (l ++ [0])[i] = v := e
      rw [e1] at hm
      exact h hm
    · intro e
      have e1 : (l ++ [0])[i] = v := e
      rw [hm] at e1
      exact hv e1.symm
  · rw [List.getElem?_eq_none hi]
    intro e
    exact hv e.symm

/-- With the cursor on the terminator of the line, `*p_char` is null. -/
theorem in_line_end_deref (s : state) (l : List Nat) (h : in_line s l l.length) :
    s.b.deref = some 0 := by
  obtain ⟨⟨z, ht⟩, hp, _⟩ := h
  simp only [source_buffer.deref, hp, ht]
  rw [if_pos (by omega)]
  have := line_getElem l z l.length (le_refl _)
  simpa using this

/-- Scanning the rest of the current line: `m` calls of `get_char` take the
cursor from the cell `i` to the terminator, and read and print nothing. -/
theorem get_chars_to_line_end (cap : Nat) (l : List Nat)
    (hcl : ∀ x ∈ l, x ≠ 0 ∧ x ≠ buffer.EOF_CHAR) (m : Nat) :
    ∀ (s : state) (i : Nat) (ls : List (List Nat)) (w : List printed) (lc ln nest : Int),
      i + m = l.length → in_line s l i → reading s ls w lc ln nest →
      ∃ s1, in_line s1 l l.length ∧ reading s1 ls w lc ln nest ∧
        ∀ n, get_chars cap (n + m) s = get_chars cap n s1 := by
  induction m with
  | zero =>
    intro s i ls w lc ln nest him hin hr
    have e : i = l.length := by omega
    subst e
    exact ⟨s, hin, hr, fun _ => rfl⟩
  | succ m ih =>
    intro s i ls w lc ln nest him hin hr
    obtain ⟨⟨z, ht⟩, hp, hi⟩ := hin
    have hg := get_char_in_line cap s l z i ht hp (by omega) hcl
    obtain ⟨s1, h1, h2, h3⟩ := ih
      (tab_adjust ((l ++ [0]).getD (i + 1) 0)
        { g := { s.g with input_position := s.g.input_position + 1 }
          b := { s.b with p_char := .into_text (i + 1) } })
      (i + 1) ls w lc ln nest (by omega)
      (in_line_tab_adjust _ _ l (i + 1) ⟨⟨z, ht⟩, rfl, by omega⟩)
      (reading_tab_adjust _ _ ls w lc ln nest hr)
    refine ⟨s1, h1, h2, fun n => ?_⟩
    rw [← h3 n]
    show get_chars cap ((n + m) + 1) s = _
    rw [get_chars, hg]

/-- Crossing to the next line that is not empty, from the terminator of the
current line: one `get_char` loads and lists the line and returns its first
character. -/
theorem get_chars_cross (cap : Nat) (s : state) (l0 : List Nat) (k : Nat) (c : Nat)
    (l : List Nat) (ls1 : List (List Nat)) (w : List printed) (lc ln nest : Int)
    (hin : in_line s l0 l0.length)
    (hr : reading s (List.replicate k [] ++ (c :: l) :: ls1) w lc ln nest)
    (hpl : plain_line cap (c :: l)) :
    ∃ s1, in_line s1 (c :: l) 0 ∧
      reading s1 ls1 (w ++ [listed nest (c :: l) (ln + k + 1)]) (lc + 1) (ln + k + 1) nest ∧
      ∀ n, get_chars cap (n + 1) s = get_chars cap n s1 := by
  obtain ⟨s1, hl, hne, hr1, hin1⟩ := get_line_reading cap s k c l ls1 w lc ln nest hr hpl
  have hg := get_char_of_null cap s s1 c (in_line_end_deref s l0 hin) hl
  refine ⟨tab_adjust c s1, in_line_tab_adjust c s1 _ 0 hin1,
    reading_tab_adjust c s1 _ _ _ _ _ hr1, fun n => ?_⟩
  rw [get_chars, hg]

/-- Scanning the lines left in the file, from the terminator of the current
line, up to the terminator of the last line that is not empty: every call of
`get_char` has a result, what is printed on the way is exactly the listing of
those lines, and only empty lines are left to read. -/
theorem get_chars_listing (cap : Nat) (nest : Int) (n : Nat) :
    ∀ (ls : List (List Nat)), ls.length ≤ n → (∀ l ∈ ls, plain_line cap l) →
      ∀ (s : state) (l0 : List Nat) (w : List printed) (lc ln : Int),
        in_line s l0 l0.length → reading s ls w lc ln nest →
        ∃ (m : Nat) (s_end : state) (k : Nat), get_chars cap m s = some s_end ∧
          s_end.b.deref = some 0 ∧ s_end.b.file.rest = List.replicate k 10 ∧
          s_end.b.file.eofbit = false ∧
          s_end.g.wcout = w ++ listing nest ln ls ∧
          s_end.g.list.line_count = lc + ((listing nest ln ls).length : Int) := by
  have hblank : ∀ (k : Nat) (ln : Int), listing nest ln (List.replicate k []) = [] := by
    intro k ln
    have := listing_blank nest k [] ln
    simpa [listing] using this
  have hstop : ∀ (k : Nat) (s : state) (l0 : List Nat) (w : List printed) (lc ln : Int),
      in_line s l0 l0.length → reading s (List.replicate k []) w lc ln nest →
      ∃ (m : Nat) (s_end : state) (k1 : Nat), get_chars cap m s = some s_end ∧
        s_end.b.deref = some 0 ∧ s_end.b.file.rest = List.replicate k1 10 ∧
        s_end.b.file.eofbit = false ∧
        s_end.g.wcout = w ++ listing nest ln (List.replicate k []) ∧
        s_end.g.list.line_count =
          lc + ((listing nest ln (List.replicate k [])).length : Int) := by
    intro k s l0 w lc ln hin hr
    obtain ⟨he, _, hrest, _, hw, hlc, _, _⟩ := hr
    refine ⟨0, s, k, rfl, in_line_end_deref s l0 hin, ?_, he, ?_, ?_⟩
    · rw [hrest]
      simpa [unlines] using unlines_blank k []
    · rw [hblank, hw]
      simp
    · rw [hblank, hlc]
      simp
  induction n with
  | zero =>
    intro ls hn _ s l0 w lc ln hin hr
    have e : ls = List.replicate 0 [] := by
      cases ls with
      | nil => rfl
      | cons a t => simp at hn
    rw [e] at hr ⊢
    exact hstop 0 s l0 w lc ln hin hr
  | succ n ih =>
    intro ls hn hpl s l0 w lc ln hin hr
    rcases blank_lines_split ls with ⟨k, hk⟩ | ⟨k, c, l, ls1, hk⟩
    · rw [hk] at hr ⊢
      exact hstop k s l0 w lc ln hin hr
    · rw [hk] at hr
      have hplc : plain_line cap (c :: l) := hpl _ (by rw [hk]; simp)
      obtain ⟨s1, hin1, hr1, hc1⟩ := get_chars_cross cap s l0 k c l ls1 w lc ln nest hin hr hplc
      obtain ⟨s2, hin2, hr2, hc2⟩ := get_chars_to_line_end cap (c :: l)
        (fun x hx => ⟨(hplc.2 x hx).2.1, (hplc.2 x hx).2.2⟩) (c :: l).length s1 0 ls1 _ _ _ nest
        (by omega) hin1 hr1
      have hlen : ls1.length ≤ n := by
        rw [hk] at hn
        simp at hn
        omega
      obtain ⟨m, s_end, k1, h1, hd, hrest, he, h2, h3⟩ := ih ls1 hlen
        (fun x hx => hpl x (by rw [hk]; simp [hx])) s2 (c :: l) _ _ _ hin2 hr2
      have hl : listing nest ln ls =
          listed nest (c :: l) (ln + k + 1) :: listing nest (ln + k + 1) ls1 := by
        rw [hk, listing_blank, listing]
      refine ⟨m + (c :: l).length + 1, s_end, k1, ?_, hd, hrest, he, ?_, ?_⟩
      · rw [hc1, hc2]
        exact h1
      · rw [h2, hl]
        simp
      · rw [h3, hl]
        simp only [List.length_cons]
        push_cast
        omega

/-- The function `initialize` leaves `line_count` alone. -/
theorem initialize_line_count (l : list_buffer) (name : List Nat) :
    list_buffer.line_count ( list_buffer.initialize l name) = l.line_count := by
  unfold list_buffer.initialize
  split <;> rfl

/-- The constructor ends with the buffer that its call of `get_line` leaves. -/
theorem construct_of_get_line (cap : Nat) (g0 : globals) (name c : List Nat) (ch : Nat)
    (s1 : state)
    (h : get_line cap (source_buffer.entered cap g0 name (wifstream.open (some c))) =
      .ok (ch, s1)) :
    source_buffer.construct cap g0 name (some c) = .ready s1 := by
  simp only [wifstream.open] at h
  simp only [source_buffer.construct, wifstream.open, Bool.or_self, Bool.false_eq_true,
    if_false, h]

/-- The state in which the constructor calls `get_line`, with the listing on. -/
theorem entered_reading (cap : Nat) (g0 : globals) (name : List Nat) (ls : List (List Nat))
    (hflag : g0.list_flag = true) :
    reading (source_buffer.entered cap g0 name (wifstream.open (some (unlines ls)))) ls
      g0.wcout g0.list.line_count g0.current_line_number g0.current_nesting_level := by
  unfold reading source_buffer.entered wifstream.open
  rw [if_pos hflag]
  exact ⟨rfl, rfl, rfl, hflag, rfl, initialize_line_count _ _, rfl, rfl⟩

/-- C7, as stated, fails: with the listing on, the file of length zero (no
physical line) has one record printed by its construction, and of the file
with the four physical lines `a`, empty, empty, `b` two records are printed
when the whole file has been read, after three calls of `get_char`: `a` with
the number 1 and, as the second record, `b` with the number 4. The fourth
call, which meets the end of the file, prints a third, empty record with the
number 4, and the fifth has no result: `EOF_CHAR` is not returned. -/
theorem listing_record_count_differs :
    (opened true []).map (fun s => (s.g.wcout, s.g.list.line_count)) =
      some ([.line { text := [], line_number := 0, nesting_level := 0 }], 1) ∧
    ((opened true [97, 10, 10, 10, 98, 10]).bind (get_chars 256 3)).map
      (fun s => (s.g.wcout, s.g.list.line_count, s.b.file.rest)) =
      some ([.line { text := [97], line_number := 1, nesting_level := 0 },
             .line { text := [98], line_number := 4, nesting_level := 0 }], 2, []) ∧
    ((opened true [97, 10, 10, 10, 98, 10]).bind (get_chars 256 4)).map
      (fun s => (s.g.wcout, s.g.list.line_count)) =
      some ([.line { text := [97], line_number := 1, nesting_level := 0 },
             .line { text := [98], line_number := 4, nesting_level := 0 },
             .line { text := [], line_number := 4, nesting_level := 0 }], 3) ∧
    (opened true [97, 10, 10, 10, 98, 10]).bind (get_chars 256 5) = none := by
  set_option maxRecDepth 100000 in
  decide

/-- C7, amended: for every source file that has a line that is not empty and
whose physical lines all end with a newline, fit the input buffer and hold no
null character and no character 0x7F, opened with `list_flag` set: the
construction succeeds and `get_char` can be called, every call with a
result, until the cursor is on the terminator of the last line that is not
empty, with nothing but empty lines left to read. The records printed up to
there are exactly one for every physical line that is not empty, in the order
of the file: the first 80 characters of the line, its physical line number
counted from the value of `current_line_number` at the opening (empty lines
are counted but get no record) and the nesting level; `line_count` has grown
by exactly the number of these records. -/
theorem listing_of_file (cap : Nat) (g0 : globals) (name : List Nat)
    (ls : List (List Nat)) (hflag : g0.list_flag = true) (hls : ∀ l ∈ ls, plain_line cap l)
    (hne : ∃ l ∈ ls, l ≠ []) :
    ∃ (s0 : state) (m : Nat) (s_end : state) (k : Nat),
      source_buffer.construct cap g0 name (some (unlines ls)) = .ready s0 ∧
      get_chars cap m s0 = some s_end ∧
      s_end.b.deref = some 0 ∧ s_end.b.file.rest = List.replicate k 10 ∧
      s_end.b.file.eofbit = false ∧
      s_end.g.wcout =
        g0.wcout ++ listing g0.current_nesting_level g0.current_line_number ls ∧
      s_end.g.list.line_count = g0.list.line_count +
        ((listing g0.current_nesting_level g0.current_line_number ls).length : Int) := by
  have hr := entered_reading cap g0 name ls hflag
  rcases blank_lines_split ls with ⟨k, hk⟩ | ⟨k, c, l, ls1, hk⟩
  · exfalso
    obtain ⟨l, hl, hl0⟩ := hne
    rw [hk] at hl
    exact hl0 (List.mem_replicate.1 hl).2
  · rw [hk] at hr
    have hplc : plain_line cap (c :: l) := hls _ (by rw [hk]; simp)
    obtain ⟨s1, hl, _, hr1, hin1⟩ := get_line_reading cap _ k c l ls1 _ _ _ _ hr hplc
    obtain ⟨s2, hin2, hr2, hc2⟩ := get_chars_to_line_end cap (c :: l)
      (fun x hx => ⟨(hplc.2 x hx).2.1, (hplc.2 x hx).2.2⟩) (c :: l).length s1 0 ls1 _ _ _ _
      (by omega) hin1 hr1
    obtain ⟨m, s_end, k1, h1, hd, hrest, he, h2, h3⟩ := get_chars_listing cap
      g0.current_nesting_level ls1.length ls1 (le_refl _)
      (fun x hx => hls x (by rw [hk]; simp [hx])) s2 (c :: l) _ _ _ hin2 hr2
    have hl0 : listing g0.current_nesting_level g0.current_line_number ls =
        listed g0.current_nesting_level (c :: l) (g0.current_line_number + k + 1) ::
          listing g0.current_nesting_level (g0.current_line_number + k + 1) ls1 := by
      rw [hk, listing_blank, listing]
    rw [← hk] at hl
    refine ⟨s1, m + (c :: l).length, s_end, k1,
      construct_of_get_line cap g0 name _ c s1 hl, ?_, hd, hrest, he, ?_, ?_⟩
    · rw [hc2]
      exact h1
    · rw [h2, hl0]
      simp
    · rw [h3, hl0]
      simp only [List.length_cons]
      push_cast
      omega

/-- The amended C7 at startup, on the file with the lines `ab`, empty, `c` and
empty. -/
theorem listing_of_file_witness :
    ∃ (s0 : state) (m : Nat) (s_end : state) (k : Nat),
      source_buffer.construct 256 (buffer.startup true 0) [102]
        (some (unlines [[97, 98], [], [99], []])) = .ready s0 ∧
      get_chars 256 m s0 = some s_end ∧
      s_end.b.deref = some 0 ∧ s_end.b.file.rest = List.replicate k 10 ∧
      s_end.b.file.eofbit = false ∧
      s_end.g.wcout =
        (buffer.startup true 0).wcout ++
          listing (buffer.startup true 0).current_nesting_level
            (buffer.startup true 0).current_line_number [[97, 98], [], [99], []] ∧
      s_end.g.list.line_count = (buffer.startup true 0).list.line_count +
        ((listing (buffer.startup true 0).current_nesting_level
            (buffer.startup true 0).current_line_number [[97, 98], [], [99], []]).length : Int) :=
  listing_of_file 256 (buffer.startup true 0) [102] [[97, 98], [], [99], []] rfl
    (by
      intro l hl
      simp only [List.mem_cons, List.mem_singleton, List.not_mem_nil, or_false] at hl
      rcases hl with h | h | h | h <;> subst h <;> exact ⟨by decide, by decide⟩)
    ⟨[97, 98], by simp, by simp⟩

/-! ### The line counter -/

/-- The loop of `get_line` only counts upwards. -/
theorem read_lines_line_number (cap : Nat) (fuel : Nat) :
    ∀ (f : wifstream) (a : List Nat) (ln : Int) (f1 : wifstream) (a1 : List Nat) (ln1 : Int),
      read_lines cap fuel f a ln = some (f1, a1, ln1) → ln ≤ ln1 := by
  induction fuel with
  | zero =>
    intro f a ln f1 a1 ln1 h
    simp [read_lines] at h
  | succ fuel ih =>
    intro f a ln f1 a1 ln1 h
    unfold read_lines at h
    dsimp only at h
    split at h
    · injection h with h
      injection h with _ h
      injection h with _ h3
      omega
    · split at h
      · have := ih _ _ _ f1 a1 ln1 h
        omega
      · injection h with h
        injection h with _ h
        injection h with _ h3
        omega

/-- The function `get_line` does not lower `current_line_number`. -/
theorem get_line_line_number (cap : Nat) (s s1 : state) (ch : Nat)
    (h : get_line cap s = .ok (ch, s1)) :
    s.g.current_line_number ≤ s1.g.current_line_number := by
  have he := get_line_ok_eofbit cap s _ h
  unfold get_line at h
  split at h
  · simp_all
  · split at h
    · cases h
    · rename_i f a ln hrl
      dsimp only at h
      split at h
      · cases h
      · injection h with h
        injection h with _ h2
        rw [← h2]
        exact read_lines_line_number cap _ _ _ _ f a ln hrl

/-- The tab adjustment leaves `current_line_number` alone. -/
theorem tab_adjust_line_number (ch : Nat) (s : state) :
    (tab_adjust ch s).g.current_line_number = s.g.current_line_number := by
  unfold tab_adjust
  split <;> rfl

/-- The function `get_char` does not lower `current_line_number`. -/
theorem get_char_line_number (cap : Nat) (s s1 : state) (c : Nat)
    (hg : get_char cap s = .ok (c, s1)) :
    s.g.current_line_number ≤ s1.g.current_line_number := by
  cases hd : s.b.deref with
  | none =>
    unfold get_char at hg
    simp [hd] at hg
  | some c0 =>
    by_cases he : c0 = buffer.EOF_CHAR
    · rw [he] at hd
      rw [get_char_of_eof_char cap s hd] at hg
      injection hg with hg
      injection hg with _ h2
      rw [h2]
    · by_cases h0 : c0 = 0
      · rw [h0] at hd
        obtain ⟨s0, hl, h2⟩ := get_char_null_ok cap s s1 c hd hg
        rw [h2, tab_adjust_line_number]
        exact get_line_line_number cap s s0 c hl
      · have hadv : advances s = true := (advances_iff s).2 ⟨c0, hd, he, h0⟩
        obtain ⟨_, h2⟩ := get_char_advances_ok cap s s1 c hadv hg
        rw [h2, tab_adjust_line_number]

/-- C11: `current_line_number` never goes back. For every state, a `get_char`
or a `get_line` that has a result leaves it at least as large, `put_back_char`
leaves it as it is, and so does the construction of a further source buffer
from the same variables (a nested file while this cursor is live): the buffer
it ends with has the counter at least as large, it is not set back to 0, and
an aborted construction leaves it as it is. -/
theorem current_line_number_monotone (cap : Nat) (s : state) :
    (∀ c s1, get_char cap s = .ok (c, s1) →
      s.g.current_line_number ≤ s1.g.current_line_number) ∧
    (∀ c s1, get_line cap s = .ok (c, s1) →
      s.g.current_line_number ≤ s1.g.current_line_number) ∧
    (put_back_char s).2.g.current_line_number = s.g.current_line_number ∧
    (∀ name content s1, source_buffer.construct cap s.g name content = .ready s1 →
      s.g.current_line_number ≤ s1.g.current_line_number) ∧
    (∀ name content ac g1, source_buffer.construct cap s.g name content = .aborted ac g1 →
      g1.current_line_number = s.g.current_line_number) := by
  refine ⟨fun c s1 h => get_char_line_number cap s s1 c h,
    fun c s1 h => get_line_line_number cap s s1 c h, rfl, ?_, ?_⟩
  · intro name content s1 h
    obtain ⟨c, ch, _, hl⟩ := construct_ready cap s.g name content s1 h
    have := get_line_line_number cap _ s1 ch hl
    have e : (source_buffer.entered cap s.g name (wifstream.open (some c))).g.current_line_number
        = s.g.current_line_number := by
      unfold source_buffer.entered
      dsimp only
      split <;> rfl
    rw [e] at this
    exact this
  · intro name content ac g1 h
    cases content with
    | none =>
      simp only [source_buffer.construct, wifstream.open, abort_translation, Bool.or_true,
        if_true] at h
      injection h with _ h2
      rw [← h2]
    | some c =>
      simp only [source_buffer.construct, wifstream.open, Bool.or_self, Bool.false_eq_true,
        if_false] at h
      split at h <;> cases h

/-- C11 on the file with the lines `a` and `b`: after the calls that read the
second line the counter is 2, and a source buffer constructed then for a
nested file with the line `x` ends with the counter at 3. -/
theorem current_line_number_monotone_witness :
    (sample [97, 10, 98, 10] 2).g.current_line_number = 2 ∧
    source_buffer.construct 256 (sample [97, 10, 98, 10] 2).g [103] (some [120, 10]) =
      .ready (sample_nested [97, 10, 98, 10] 2 [120, 10]) ∧
    (sample_nested [97, 10, 98, 10] 2 [120, 10]).g.current_line_number = 3 ∧
    (sample [97, 10, 98, 10] 2).g.current_line_number ≤
      (sample_nested [97, 10, 98, 10] 2 [120, 10]).g.current_line_number :=
  ⟨by set_option maxRecDepth 100000 in decide,
    by set_option maxRecDepth 100000 in decide,
    by set_option maxRecDepth 100000 in decide,
    (current_line_number_monotone 256 (sample [97, 10, 98, 10] 2)).2.2.2.1 [103]
      (some [120, 10]) (sample_nested [97, 10, 98, 10] 2 [120, 10])
      (by set_option maxRecDepth 100000 in decide)⟩

/-! ### The listing buffer -/

/-- Cutting an array and then reading its C string gives the C string cut at
the same length. -/
theorem cstr_take (n : Nat) : ∀ t : List Nat, cstr (t.take n) = (cstr t).take n := by
  induction n with
  | zero =>
    intro t
    simp [cstr]
  | succ n ih =>
    intro t
    cases t with
    | nil => simp [cstr]
    | cons c t =>
      have h := ih t
      unfold cstr at h ⊢
      by_cases hc : c = 0
      · simp [hc]
      · simp [List.takeWhile_cons, hc, h]

/-- C12: for every listing buffer, with `t` the string its text holds, `put_line`
prints exactly the first `min (length t) 80` characters of `t` (one line, the
first 80 characters of `t`, `max_printline_length` being 80), leaves the text
empty and increments `line_count` by exactly 1. -/
theorem put_line_prints_cut_line (l : list_buffer) (out : List printed) :
    (l.put_line out).2 =
      out ++ [.line { text := (cstr l.text).take 80, line_number := l.line_number,
                      nesting_level := l.nesting_level }] ∧
    ((cstr l.text).take 80).length = min (cstr l.text).length 80 ∧
    buffer.max_printline_length = 80 ∧
    (l.put_line out).1.text = [] ∧
    (l.put_line out).1.line_count = l.line_count + 1 := by
  refine ⟨?_, ?_, rfl, rfl, rfl⟩
  · simp only [list_buffer.put_line, buffer.max_printline_length, cstr_take]
  · rw [List.length_take, Nat.min_comm]

/-- C12 on a text of 100 characters: 80 are printed. -/
theorem put_line_prints_cut_line_witness :
    ((buffer.startup true 0).list.wbuffer (List.replicate 100 97) 1 0 |>.put_line []).2 =
      [.line { text := List.replicate 80 97, line_number := 1, nesting_level := 0 }] ∧
    ((cstr (List.replicate 100 97)).take 80).length = min (cstr (List.replicate 100 97)).length 80 :=
  ⟨by decide,
    by
      have h := (put_line_prints_cut_line
        ((buffer.startup true 0).list.wbuffer (List.replicate 100 97) 1 0) []).2.1
      have e : cstr ((buffer.startup true 0).list.wbuffer (List.replicate 100 97) 1 0).text =
          cstr (List.replicate 100 97) := by decide
      rw [e] at h
      exact h⟩

/-- C16: `list_buffer::initialize` with an empty file name leaves the whole
listing buffer as it is; with a file name that is not empty it sets the text
to empty and `source_file_name` to that name, and leaves `line_count` alone. -/
theorem initialize_effect (l : list_buffer) (file_name : List Nat) :
    (file_name = [] → list_buffer.initialize l file_name = l) ∧
    (file_name ≠ [] →
      list_buffer.text ( list_buffer.initialize l file_name) = [] ∧
      list_buffer.source_file_name ( list_buffer.initialize l file_name) = file_name ∧
      list_buffer.line_count ( list_buffer.initialize l file_name) = l.line_count) := by
  constructor
  · intro h
    simp [h, list_buffer.initialize]
  · intro h
    have e : file_name.isEmpty = false := by
      cases file_name with
      | nil => exact absurd rfl h
      | cons a t => rfl
    simp [e, list_buffer.initialize]

/-- C16 on a buffer that holds a line: the empty name changes nothing, the name
`f` blanks the text and is stored. -/
theorem initialize_effect_witness :
    list_buffer.initialize ((buffer.startup true 0).list.wbuffer [97, 98] 1 0) [] =
      (buffer.startup true 0).list.wbuffer [97, 98] 1 0 ∧
    list_buffer.text
      ( list_buffer.initialize ((buffer.startup true 0).list.wbuffer [97, 98] 1 0) [102]) = [] ∧
    list_buffer.source_file_name
      ( list_buffer.initialize ((buffer.startup true 0).list.wbuffer [97, 98] 1 0) [102]) = [102] ∧
    list_buffer.line_count
      ( list_buffer.initialize ((buffer.startup true 0).list.wbuffer [97, 98] 1 0) [102]) =
      ((buffer.startup true 0).list.wbuffer [97, 98] 1 0).line_count :=
  ⟨(initialize_effect ((buffer.startup true 0).list.wbuffer [97, 98] 1 0) []).1 rfl,
    (initialize_effect ((buffer.startup true 0).list.wbuffer [97, 98] 1 0) [102]).2 (by decide)⟩

/-! ### A file that cannot be opened -/

/-- C15: constructing a source buffer for a file that cannot be opened aborts
with `ABORT_SOURCE_FILE_OPEN_FAILED`; neither `list.initialize` nor `get_line`
has run: the listing buffer with its `line_count`, `current_line_number` and
`input_position` are as before, and the output has gained the message of the
base constructor and no line of the listing. -/
theorem open_failure_aborts (cap : Nat) (g0 : globals) (name : List Nat) :
    source_buffer.construct cap g0 name none =
      .aborted .ABORT_SOURCE_FILE_OPEN_FAILED
        { g0 with wcout := g0.wcout ++ [.open_failed name] } ∧
    ∀ ac g1, source_buffer.construct cap g0 name none = .aborted ac g1 →
      ac = .ABORT_SOURCE_FILE_OPEN_FAILED ∧
      g1.list = g0.list ∧ g1.list.line_count = g0.list.line_count ∧
      g1.current_line_number = g0.current_line_number ∧
      g1.input_position = g0.input_position ∧
      g1.wcout = g0.wcout ++ [.open_failed name] ∧
      (∀ x, printed.line x ∈ g1.wcout → printed.line x ∈ g0.wcout) := by
  have h : source_buffer.construct cap g0 name none =
      .aborted .ABORT_SOURCE_FILE_OPEN_FAILED
        { g0 with wcout := g0.wcout ++ [.open_failed name] } := by
    simp [source_buffer.construct, wifstream.open, abort_translation]
  refine ⟨h, ?_⟩
  intro ac g1 he
  rw [h] at he
  injection he with h1 h2
  subst h1 h2
  refine ⟨rfl, rfl, rfl, rfl, rfl, rfl, ?_⟩
  intro x hx
  simpa using hx

/-- C15 at startup with the listing on and the file name `f`: the abort leaves
the listing buffer as it was at startup, without the file name. -/
theorem open_failure_aborts_witness :
    source_buffer.construct 256 (buffer.startup true 0) [102] none =
      .aborted .ABORT_SOURCE_FILE_OPEN_FAILED
        { buffer.startup true 0 with
          wcout := (buffer.startup true 0).wcout ++ [.open_failed [102]] } ∧
    (buffer.startup true 0).list.source_file_name = [] :=
  ⟨(open_failure_aborts 256 (buffer.startup true 0) [102]).1, rfl⟩

/-! ### Putting back a character that is not a tab -/

/-- The state left by a `put_back_char` after a `get_char` that moved inside the
line to a character that is not a tab is the state before that `get_char`. -/
theorem put_back_char_undoes_advance (s : state) (c : Nat) (hc : c ≠ 9) :
    (put_back_char (tab_adjust c
      { g := { s.g with input_position := s.g.input_position + 1 }
        b := { s.b with p_char := s.b.p_char.add 1 } })).2 = s := by
  unfold tab_adjust
  rw [if_neg hc]
  obtain ⟨g, b⟩ := s
  obtain ⟨ln, ip, lf, l, nl, w⟩ := g
  obtain ⟨f, fname, t, p⟩ := b
  simp only [put_back_char, pointer_add_cancel]
  congr 2
  omega

/-- C19: when `get_char` moved the cursor inside the current line and returned a
character `c` other than a tab, leaving the state `s1`, then `put_back_char`
followed by `get_char` returns `c` again and leaves exactly the state `s1`
(the cursor index, `input_position` and everything else), and
`current_line_number`, the listing buffer and the output are the same in all
the states passed. -/
theorem put_back_char_restores (cap : Nat) (s s1 : state) (c : Nat) (h : advances s = true)
    (hg : get_char cap s = .ok (c, s1)) (hc : c ≠ 9) :
    get_char cap (put_back_char s1).2 = .ok (c, s1) ∧
    (put_back_char s1).2.g.current_line_number = s1.g.current_line_number ∧
    (put_back_char s1).2.g.list = s1.g.list ∧
    (put_back_char s1).2.g.wcout = s1.g.wcout ∧
    s1.g.current_line_number = s.g.current_line_number ∧ s1.g.list = s.g.list ∧
    s1.b.p_char = s.b.p_char.add 1 ∧ s1.g.input_position = s.g.input_position + 1 := by
  obtain ⟨_, hs1⟩ := get_char_advances_ok cap s s1 c h hg
  have hback : (put_back_char s1).2 = s := by
    rw [hs1]
    exact put_back_char_undoes_advance s c hc
  have hta : tab_adjust c
      { g := { s.g with input_position := s.g.input_position + 1 }
        b := { s.b with p_char := s.b.p_char.add 1 } } =
      { g := { s.g with input_position := s.g.input_position + 1 }
        b := { s.b with p_char := s.b.p_char.add 1 } } := by
    unfold tab_adjust
    rw [if_neg hc]
  rw [hback]
  rw [hta] at hs1
  refine ⟨hg, ?_, ?_, ?_, ?_, ?_, ?_, ?_⟩ <;> rw [hs1]

/-- C19 on the file `abc`, for the `get_char` that returned `b`. -/
theorem put_back_char_restores_witness :
    get_char 256 (put_back_char (sample [97, 98, 99, 10] 1)).2 =
      .ok (98, sample [97, 98, 99, 10] 1) ∧
    (put_back_char (sample [97, 98, 99, 10] 1)).2.g.current_line_number =
      (sample [97, 98, 99, 10] 1).g.current_line_number ∧
    (put_back_char (sample [97, 98, 99, 10] 1)).2.g.list = (sample [97, 98, 99, 10] 1).g.list ∧
    (put_back_char (sample [97, 98, 99, 10] 1)).2.g.wcout = (sample [97, 98, 99, 10] 1).g.wcout ∧
    (sample [97, 98, 99, 10] 1).g.current_line_number =
      (sample [97, 98, 99, 10] 0).g.current_line_number ∧
    (sample [97, 98, 99, 10] 1).g.list = (sample [97, 98, 99, 10] 0).g.list ∧
    (sample [97, 98, 99, 10] 1).b.p_char = (sample [97, 98, 99, 10] 0).b.p_char.add 1 ∧
    (sample [97, 98, 99, 10] 1).g.input_position =
      (sample [97, 98, 99, 10] 0).g.input_position + 1 :=
  put_back_char_restores 256 (sample [97, 98, 99, 10] 0) (sample [97, 98, 99, 10] 1) 98
    (by set_option maxRecDepth 100000 in decide)
    (by set_option maxRecDepth 100000 in rfl)
    (by decide)

/-! ### The record of the line read -/

/-- The listing step for a line without null character, with the listing off:
the line is stored with its number and the nesting level, nothing is printed. -/
theorem list_line_off (g : globals) (l z : List Nat) (ln : Int) (hflag : g.list_flag = false)
    (h0 : ∀ x ∈ l, x ≠ 0) :
    (list_line g (l ++ 0 :: z) ln).2 = g.wcout ∧
    (list_line g (l ++ 0 :: z) ln).1 =
      { g.list with text := l, line_number := ln, nesting_level := g.current_nesting_level } := by
  constructor <;>
    simp [list_line, hflag, list_buffer.wbuffer, cstr_append_null, cstr_of_no_null l h0]

/-- The line number and nesting level that the listing step stores. -/
theorem list_line_numbers (g : globals) (a : List Nat) (ln : Int) :
    (list_line g a ln).1.line_number = ln ∧
    (list_line g a ln).1.nesting_level = g.current_nesting_level := by
  unfold list_line
  dsimp only
  split <;> exact ⟨rfl, rfl⟩

/-- What `get_line` leaves in the listing after it read, behind `k` empty lines,
a line that ends with a newline, fits the buffer and holds no null
character: the number of the line and the nesting level in both modes; with
the listing off the text of the line, nothing printed; with the listing on
the line printed, cut at the print width, and the text blanked. -/
theorem get_line_skip_record (cap : Nat) (s : state) (c : Nat) (l r : List Nat) (k : Nat)
    (he : s.b.file.eofbit = false) (hf : s.b.file.failbit = false)
    (hr : s.b.file.rest = List.replicate k 10 ++ (c :: l) ++ 10 :: r)
    (h0 : ∀ x ∈ c :: l, x ≠ 0) (h10 : 10 ∉ c :: l) (hlen : (c :: l).length < cap) :
    get_line cap s =
      .ok (c, line_read cap s (c :: l) r (s.g.current_line_number + k + 1)) ∧
    (line_read cap s (c :: l) r (s.g.current_line_number + k + 1)).g.list.line_number =
      s.g.current_line_number + k + 1 ∧
    (line_read cap s (c :: l) r (s.g.current_line_number + k + 1)).g.list.nesting_level =
      s.g.current_nesting_level ∧
    (s.g.list_flag = false →
      (line_read cap s (c :: l) r (s.g.current_line_number + k + 1)).g.list.text = c :: l ∧
      (line_read cap s (c :: l) r (s.g.current_line_number + k + 1)).g.wcout = s.g.wcout ∧
      (line_read cap s (c :: l) r (s.g.current_line_number + k + 1)).g.list.line_count =
        s.g.list.line_count) ∧
    (s.g.list_flag = true →
      (line_read cap s (c :: l) r (s.g.current_line_number + k + 1)).g.list.text = [] ∧
      (line_read cap s (c :: l) r (s.g.current_line_number + k + 1)).g.wcout =
        s.g.wcout ++ [listed s.g.current_nesting_level (c :: l)
          (s.g.current_line_number + k + 1)] ∧
      (line_read cap s (c :: l) r (s.g.current_line_number + k + 1)).g.list.line_count =
        s.g.list.line_count + 1) := by
  have hl := get_line_skip cap s c l r k he hf hr (h0 c (List.mem_cons_self c l)) h10 hlen
  have hn := list_line_numbers s.g (write_cstr (List.replicate cap 0) (c :: l))
    (s.g.current_line_number + k + 1)
  refine ⟨hl, hn.1, hn.2, ?_, ?_⟩
  · intro hflag
    have h := list_line_off s.g (c :: l) ((List.replicate cap 0).drop ((c :: l).length + 1))
      (s.g.current_line_number + k + 1) hflag h0
    refine ⟨?_, h.1, ?_⟩
    · show (list_line s.g (write_cstr (List.replicate cap 0) (c :: l)) _).1.text = c :: l
      unfold write_cstr
      rw [h.2]
    · show (list_line s.g (write_cstr (List.replicate cap 0) (c :: l)) _).1.line_count = _
      unfold write_cstr
      rw [h.2]
  · intro hflag
    have h := list_line_on s.g (c :: l) ((List.replicate cap 0).drop ((c :: l).length + 1))
      (s.g.current_line_number + k + 1) hflag h0
    refine ⟨?_, h.1, h.2⟩
    show (list_line s.g (write_cstr (List.replicate cap 0) (c :: l)) _).1.text = []
    unfold list_line
    simp only [hflag, if_true, list_buffer.put_line]

/-- The loaded line: the string in `text`, the cursor and the file after
`get_line` read the line `l`. -/
theorem line_read_buffer (cap : Nat) (s : state) (c : Nat) (l r : List Nat) (ln : Int)
    (h0 : ∀ x ∈ c :: l, x ≠ 0) :
    cstr (line_read cap s (c :: l) r ln).b.text = c :: l ∧
    (line_read cap s (c :: l) r ln).b.p_char = .into_text 0 ∧
    (line_read cap s (c :: l) r ln).b.deref = some c ∧
    (line_read cap s (c :: l) r ln).b.file.rest = r ∧
    (line_read cap s (c :: l) r ln).g.input_position = 0 ∧
    (line_read cap s (c :: l) r ln).g.current_line_number = ln := by
  refine ⟨?_, rfl, ?_, rfl, rfl, rfl⟩
  · show cstr (write_cstr (List.replicate cap 0) (c :: l)) = c :: l
    unfold write_cstr
    rw [cstr_append_null, cstr_of_no_null _ h0]
  · simp only [line_read, source_buffer.deref, le_refl, if_true, Int.toNat_zero]
    rw [write_cstr_getElem _ _ 0 (by simp)]
    rfl

/-- C14, as stated, fails: with `list_flag` set, after the `get_line` of the
constructor read the line `ab` of a file, the text of the listing buffer is
empty (the line was printed and the text blanked), not `ab`; the line number
1 and the nesting level 0 are those of the line. -/
theorem listing_text_blank_after_echo :
    (opened true [97, 98, 10]).map
      (fun s => (s.g.list.text, s.g.list.line_number, s.g.list.nesting_level, cstr s.b.text)) =
      some ([], 1, 0, [97, 98]) ∧
    (opened false [97, 98, 10]).map
      (fun s => (s.g.list.text, s.g.list.line_number, s.g.list.nesting_level, cstr s.b.text)) =
      some ([97, 98], 1, 0, [97, 98]) := by
  set_option maxRecDepth 100000 in
  decide

/-- C14, amended: after a `get_line` that read, on a good stream and behind `k`
empty lines, a physical line that ends with a newline, fits the input buffer
and holds no null character, the line number and the nesting level recorded
in the listing buffer are those of that line, with `list_flag` false and
with `list_flag` true; the buffered text equals the text of the line when
`list_flag` is false, and when `list_flag` is true the line has been printed
(cut at the print width) and the buffered text is empty. -/
theorem retained_listing_record (cap : Nat) (s : state) (c : Nat) (l r : List Nat) (k : Nat)
    (he : s.b.file.eofbit = false) (hf : s.b.file.failbit = false)
    (hr : s.b.file.rest = List.replicate k 10 ++ (c :: l) ++ 10 :: r)
    (h0 : ∀ x ∈ c :: l, x ≠ 0) (h10 : 10 ∉ c :: l) (hlen : (c :: l).length < cap) :
    ∃ s1, get_line cap s = .ok (c, s1) ∧ cstr s1.b.text = c :: l ∧
      s1.g.current_line_number = s.g.current_line_number + k + 1 ∧
      s1.g.list.line_number = s1.g.current_line_number ∧
      s1.g.list.nesting_level = s.g.current_nesting_level ∧
      (s.g.list_flag = false → s1.g.list.text = c :: l ∧ s1.g.wcout = s.g.wcout) ∧
      (s.g.list_flag = true → s1.g.list.text = [] ∧
        s1.g.wcout = s.g.wcout ++
          [listed s.g.current_nesting_level (c :: l) (s.g.current_line_number + k + 1)]) := by
  obtain ⟨hl, h1, h2, h3, h4⟩ := get_line_skip_record cap s c l r k he hf hr h0 h10 hlen
  obtain ⟨b1, _, _, _, _, b6⟩ :=
    line_read_buffer cap s c l r (s.g.current_line_number + k + 1) h0
  exact ⟨_, hl, b1, b6, by rw [h1, b6], h2, fun hf0 => ⟨(h3 hf0).1, (h3 hf0).2.1⟩,
    fun hf1 => ⟨(h4 hf1).1, (h4 hf1).2.1⟩⟩

/-- The amended C14 for the `get_line` of the constructor, with the listing off,
on the file with an empty line and the line `ab`. -/
theorem retained_listing_record_witness :
    ∃ s1, get_line 256 (entry false [10, 97, 98, 10]) = .ok (97, s1) ∧
      cstr s1.b.text = 97 :: [98] ∧
      s1.g.current_line_number =
        (entry false [10, 97, 98, 10]).g.current_line_number + (1 : Nat) + 1 ∧
      s1.g.list.line_number = s1.g.current_line_number ∧
      s1.g.list.nesting_level = (entry false [10, 97, 98, 10]).g.current_nesting_level ∧
      ((entry false [10, 97, 98, 10]).g.list_flag = false →
        s1.g.list.text = 97 :: [98] ∧ s1.g.wcout = (entry false [10, 97, 98, 10]).g.wcout) ∧
      ((entry false [10, 97, 98, 10]).g.list_flag = true →
        s1.g.list.text = [] ∧
        s1.g.wcout = (entry false [10, 97, 98, 10]).g.wcout ++
          [listed (entry false [10, 97, 98, 10]).g.current_nesting_level (97 :: [98])
            ((entry false [10, 97, 98, 10]).g.current_line_number + (1 : Nat) + 1)]) :=
  retained_listing_record 256 (entry false [10, 97, 98, 10]) 97 [98] [] 1 rfl rfl rfl
    (by decide) (by decide) (by decide)

/-! ### Empty lines -/

/-- C18, as stated, fails: a line that begins with a null character is passed
over like an empty one (on the file with the lines NUL `a` and `b` the
`get_line` of the constructor makes `b` the current line and counts two
lines), and of a line of 300 characters, more than the input buffer of 256
holds, only the first 255 become the current line and the record. -/
theorem line_with_null_or_too_long :
    (opened false [0, 97, 10, 98, 10]).map
      (fun s => (cstr s.b.text, s.b.deref, s.g.current_line_number, s.g.list.text)) =
      some ([98], some 98, 2, [98]) ∧
    (opened false (List.replicate 300 97 ++ [10])).map
      (fun s => ((cstr s.b.text).length, s.g.list.text.length, s.b.file.failbit)) =
      some (255, 255, true) := by
  set_option maxRecDepth 100000 in
  decide

/-- C18, amended: for every state whose stream is good and whose file holds, as
its next lines, `k` empty lines followed by a line `L` that is not empty,
ends with a newline, fits the input buffer and holds no null character, one
`get_line` call makes `L` the current line with the cursor on its first
character, which it returns, increases `current_line_number` by exactly
`k + 1`, sets `input_position` to 0 and hands exactly one record to the
listing, the text of `L` with the new line number: it is retained when
`list_flag` is false and printed as the only new line when `list_flag` is
true. The empty lines reach neither `text` nor the listing. -/
theorem empty_lines_skipped_and_counted (cap : Nat) (s : state) (c : Nat) (l r : List Nat)
    (k : Nat) (he : s.b.file.eofbit = false) (hf : s.b.file.failbit = false)
    (hr : s.b.file.rest = List.replicate k 10 ++ (c :: l) ++ 10 :: r)
    (h0 : ∀ x ∈ c :: l, x ≠ 0) (h10 : 10 ∉ c :: l) (hlen : (c :: l).length < cap) :
    ∃ s1, get_line cap s = .ok (c, s1) ∧
      cstr s1.b.text = c :: l ∧ s1.b.p_char = .into_text 0 ∧ s1.b.deref = some c ∧
      s1.b.file.rest = r ∧
      s1.g.current_line_number = s.g.current_line_number + k + 1 ∧
      s1.g.input_position = 0 ∧
      s1.g.list.line_number = s.g.current_line_number + k + 1 ∧
      (s.g.list_flag = false →
        s1.g.list.text = c :: l ∧ s1.g.wcout = s.g.wcout ∧
        s1.g.list.line_count = s.g.list.line_count) ∧
      (s.g.list_flag = true →
        s1.g.wcout = s.g.wcout ++
          [listed s.g.current_nesting_level (c :: l) (s.g.current_line_number + k + 1)] ∧
        s1.g.list.line_count = s.g.list.line_count + 1) := by
  obtain ⟨hl, h1, _, h3, h4⟩ := get_line_skip_record cap s c l r k he hf hr h0 h10 hlen
  obtain ⟨b1, b2, b3, b4, b5, b6⟩ :=
    line_read_buffer cap s c l r (s.g.current_line_number + k + 1) h0
  exact ⟨_, hl, b1, b2, b3, b4, b6, b5, h1, h3, fun hf1 => ⟨(h4 hf1).2.1, (h4 hf1).2.2⟩⟩

/-- The amended C18 at the terminator of the first line of the file with the
lines `a`, empty, empty and `bc`, with the listing on. -/
theorem empty_lines_skipped_and_counted_witness :
    ∃ s1, get_line 256 (sample [97, 10, 10, 10, 98, 99, 10] 1) = .ok (98, s1) ∧
      cstr s1.b.text = 98 :: [99] ∧ s1.b.p_char = .into_text 0 ∧ s1.b.deref = some 98 ∧
      s1.b.file.rest = [] ∧
      s1.g.current_line_number =
        (sample [97, 10, 10, 10, 98, 99, 10] 1).g.current_line_number + (2 : Nat) + 1 ∧
      s1.g.input_position = 0 ∧
      s1.g.list.line_number =
        (sample [97, 10, 10, 10, 98, 99, 10] 1).g.current_line_number + (2 : Nat) + 1 ∧
      ((sample [97, 10, 10, 10, 98, 99, 10] 1).g.list_flag = false →
        s1.g.list.text = 98 :: [99] ∧
        s1.g.wcout = (sample [97, 10, 10, 10, 98, 99, 10] 1).g.wcout ∧
        s1.g.list.line_count = (sample [97, 10, 10, 10, 98, 99, 10] 1).g.list.line_count) ∧
      ((sample [97, 10, 10, 10, 98, 99, 10] 1).g.list_flag = true →
        s1.g.wcout = (sample [97, 10, 10, 10, 98, 99, 10] 1).g.wcout ++
          [listed (sample [97, 10, 10, 10, 98, 99, 10] 1).g.current_nesting_level (98 :: [99])
            ((sample [97, 10, 10, 10, 98, 99, 10] 1).g.current_line_number + (2 : Nat) + 1)] ∧
        s1.g.list.line_count =
          (sample [97, 10, 10, 10, 98, 99, 10] 1).g.list.line_count + 1) :=
  empty_lines_skipped_and_counted 256 (sample [97, 10, 10, 10, 98, 99, 10] 1) 98 [99] [] 2
    (by set_option maxRecDepth 100000 in decide)
    (by set_option maxRecDepth 100000 in decide)
    (by set_option maxRecDepth 100000 in decide)
    (by decide) (by decide) (by decide)

/-! ### The listing and the scan -/

/-- The function `get_line` sees nothing of the listing: on states that agree on
what the scan sees it has the same result or the same fault, and leaves
states that agree again. -/
theorem get_line_same_scan (cap : Nat) (s t : state) (h : same_scan s t) :
    (∀ c s1, get_line cap s = .ok (c, s1) →
      ∃ t1, get_line cap t = .ok (c, t1) ∧ same_scan s1 t1) ∧
    (∀ e, get_line cap s = .error e → get_line cap t = .error e) := by
  obtain ⟨hb, hip, hln⟩ := h
  by_cases he : s.b.file.eofbit = true
  · have het : t.b.file.eofbit = true := by rw [← hb]; exact he
    rw [get_line_of_eofbit cap s he, get_line_of_eofbit cap t het]
    constructor
    · intro c s1 h1
      cases h1
    · intro e h1
      exact h1
  · unfold get_line
    rw [← hb, ← hln]
    simp only [he, if_false]
    cases hrl : read_lines cap (s.b.file.rest.length + 1) s.b.file (List.replicate cap 0)
        s.g.current_line_number with
    | none =>
      constructor
      · intro c s1 h1
        cases h1
      · intro e h1
        exact h1
    | some r =>
      obtain ⟨f, a, ln⟩ := r
      dsimp only
      cases hd : ({ s.b with file := f, text := a, p_char := .into_text 0 } : source_buffer).deref with
      | none =>
        constructor
        · intro c s1 h1
          cases h1
        · intro e h1
          exact h1
      | some ch =>
        constructor
        · intro c s1 h1
          injection h1 with h1
          injection h1 with h1 h2
          subst h1 h2
          exact ⟨_, rfl, rfl, rfl, rfl⟩
        · intro e h1
          cases h1

/-- The tab adjustment keeps two states in agreement on what the scan sees. -/
theorem tab_adjust_same_scan (ch : Nat) (s t : state) (h : same_scan s t) :
    same_scan (tab_adjust ch s) (tab_adjust ch t) := by
  obtain ⟨hb, hip, hln⟩ := h
  unfold tab_adjust
  split
  · refine ⟨hb, ?_, hln⟩
    show s.g.input_position + _ = t.g.input_position + _
    rw [hip]
  · exact ⟨hb, hip, hln⟩

/-- The function `get_char` sees nothing of the listing. -/
theorem get_char_same_scan (cap : Nat) (s t : state) (h : same_scan s t) :
    (∀ c s1, get_char cap s = .ok (c, s1) →
      ∃ t1, get_char cap t = .ok (c, t1) ∧ same_scan s1 t1) ∧
    (∀ e, get_char cap s = .error e → get_char cap t = .error e) := by
  have hb := h.1
  obtain ⟨gl1, gl2⟩ := get_line_same_scan cap s t h
  cases hd : s.b.deref with
  | none =>
    have hdt : t.b.deref = none := by rw [← hb]; exact hd
    constructor
    · intro c s1 h1
      simp [get_char, hd] at h1
    · intro e h1
      simp only [get_char, hd] at h1
      simp only [get_char, hdt]
      exact h1
  | some c0 =>
    have hdt : t.b.deref = some c0 := by rw [← hb]; exact hd
    by_cases he : c0 = buffer.EOF_CHAR
    · rw [he] at hd hdt
      rw [get_char_of_eof_char cap s hd, get_char_of_eof_char cap t hdt]
      constructor
      · intro c s1 h1
        injection h1 with h1
        injection h1 with h1 h2
        subst h1 h2
        exact ⟨t, rfl, h⟩
      · intro e h1
        cases h1
    · by_cases h0 : c0 = 0
      · rw [h0] at hd hdt
        constructor
        · intro c s1 h1
          obtain ⟨s0, hl, h2⟩ := get_char_null_ok cap s s1 c hd h1
          obtain ⟨t0, hlt, hsame⟩ := gl1 c s0 hl
          refine ⟨tab_adjust c t0, get_char_of_null cap t t0 c hdt hlt, ?_⟩
          rw [h2]
          exact tab_adjust_same_scan c s0 t0 hsame
        · intro e h1
          cases hl : get_line cap s with
          | ok r =>
            obtain ⟨c, s0⟩ := r
            rw [get_char_of_null cap s s0 c hd hl] at h1
            cases h1
          | error e1 =>
            have hlt := gl2 e1 hl
            unfold get_char at h1 ⊢
            simp only [hd, hdt, buffer.EOF_CHAR] at h1 ⊢
            rw [if_neg (by decide), if_pos trivial] at h1 ⊢
            rw [hl] at h1
            rw [hlt]
            exact h1
      · have hadv : advances s = true := (advances_iff s).2 ⟨c0, hd, he, h0⟩
        have hadvt : advances t = true := (advances_iff t).2 ⟨c0, hdt, he, h0⟩
        rw [get_char_of_advances cap s hadv, get_char_of_advances cap t hadvt, ← hb]
        cases hd1 : ({ s.b with p_char := s.b.p_char.add 1 } : source_buffer).deref with
        | none =>
          constructor
          · intro c s1 h1
            cases h1
          · intro e h1
            exact h1
        | some ch =>
          constructor
          · intro c s1 h1
            injection h1 with h1
            injection h1 with h1 h2
            subst h1 h2
            refine ⟨_, rfl, ?_⟩
            apply tab_adjust_same_scan
            refine ⟨rfl, ?_, h.2.2⟩
            show s.g.input_position + 1 = t.g.input_position + 1
            rw [h.2.1]
          · intro e h1
            cases h1

/-- A sequence of calls sees nothing of the listing: from states that agree on
what the scan sees, the calls return the same characters and leave the same
columns. -/
theorem run_same_scan (cap : Nat) (cs : List call) :
    ∀ s t : state, same_scan s t →
      returned (run cap cs s) = returned (run cap cs t) ∧
      columns (run cap cs s) = columns (run cap cs t) := by
  induction cs with
  | nil =>
    intro s t _
    exact ⟨rfl, rfl⟩
  | cons a cs ih =>
    intro s t h
    cases a with
    | get =>
      obtain ⟨g1, g2⟩ := get_char_same_scan cap s t h
      cases hg : get_char cap s with
      | error e =>
        have e1 : run cap (.get :: cs) s = [] := by simp only [run, hg]
        have e2 : run cap (.get :: cs) t = [] := by simp only [run, g2 e hg]
        rw [e1, e2]
        exact ⟨rfl, rfl⟩
      | ok r =>
        obtain ⟨c, s1⟩ := r
        obtain ⟨t1, hgt, hsame⟩ := g1 c s1 hg
        obtain ⟨i1, i2⟩ := ih s1 t1 hsame
        have e1 : run cap (.get :: cs) s = (some c, s1) :: run cap cs s1 := by
          simp only [run, hg]
        have e2 : run cap (.get :: cs) t = (some c, t1) :: run cap cs t1 := by
          simp only [run, hgt]
        rw [e1, e2]
        unfold returned at i1 ⊢
        unfold columns at i2 ⊢
        rw [List.map_cons, List.map_cons, List.map_cons, List.map_cons, i1, i2, hsame.2.1]
        exact ⟨rfl, rfl⟩
    | put_back =>
      have hsame : same_scan (put_back_char s).2 (put_back_char t).2 := by
        obtain ⟨hb, hip, hln⟩ := h
        refine ⟨?_, ?_, hln⟩
        · show ({ s.b with p_char := s.b.p_char.add (-1) } : source_buffer) =
            { t.b with p_char := t.b.p_char.add (-1) }
          rw [hb]
        · show s.g.input_position - 1 = t.g.input_position - 1
          rw [hip]
      obtain ⟨i1, i2⟩ := ih _ _ hsame
      have h1 : (put_back_char s).1 = (put_back_char t).1 := by
        show (put_back_char s).2.b.deref = (put_back_char t).2.b.deref
        rw [hsame.1]
      have e1 : run cap (.put_back :: cs) s =
          put_back_char s :: run cap cs (put_back_char s).2 := by simp only [run]
      have e2 : run cap (.put_back :: cs) t =
          put_back_char t :: run cap cs (put_back_char t).2 := by simp only [run]
      rw [e1, e2]
      unfold returned at i1 ⊢
      unfold columns at i2 ⊢
      rw [List.map_cons, List.map_cons, List.map_cons, List.map_cons, i1, i2, h1, hsame.2.1]
      exact ⟨rfl, rfl⟩

/-- The constructor on a file that opens: the result of its `get_line`. -/
theorem construct_some (cap : Nat) (g0 : globals) (name c : List Nat) :
    source_buffer.construct cap g0 name (some c) =
      match get_line cap (source_buffer.entered cap g0 name (wifstream.open (some c))) with
      | .error e => .failed e
      | .ok (_, s1) => .ready s1 := by
  simp only [source_buffer.construct, wifstream.open, Bool.or_self, Bool.false_eq_true, if_false]

/-- The states in which the constructor calls `get_line` with the listing on
and off agree on what the scan sees. -/
theorem entered_same_scan (cap : Nat) (g0 : globals) (name : List Nat) (f : wifstream) :
    same_scan (source_buffer.entered cap { g0 with list_flag := true } name f)
      (source_buffer.entered cap { g0 with list_flag := false } name f) := by
  refine ⟨rfl, ?_, ?_⟩ <;> simp [source_buffer.entered]

/-- The characters returned by the calls of `get_char` inside a line, tabs or
not: call `j` from the cell `i` returns the character of the cell
`i + j + 1`. -/
theorem run_in_line_returned (cap : Nat) (l z : List Nat)
    (hclean : ∀ x ∈ l, x ≠ 0 ∧ x ≠ buffer.EOF_CHAR) (k : Nat) :
    ∀ (s : state) (i : Nat), s.b.text = l ++ 0 :: z → s.b.p_char = .into_text i →
      i + k ≤ l.length →
      returned (run cap (List.replicate k .get) s) =
        (List.range k).map (fun j => some ((l ++ [0]).getD (i + j + 1) 0)) := by
  induction k with
  | zero =>
    intro s i _ _ _
    rfl
  | succ k ih =>
    intro s i ht hp hik
    rw [List.replicate_succ, run, get_char_in_line cap s l z i ht hp (by omega) hclean]
    have h2 := ih
      (tab_adjust ((l ++ [0]).getD (i + 1) 0)
        { g := { s.g with input_position := s.g.input_position + 1 }
          b := { s.b with p_char := .into_text (i + 1) } })
      (i + 1) (by rw [tab_adjust_b]; exact ht) (by rw [tab_adjust_b]; rfl) (by omega)
    simp only [returned, List.map_cons] at h2 ⊢
    rw [h2, List.range_succ_eq_map, List.map_cons, List.map_map]
    simp only [add_zero, List.cons.injEq, true_and]
    apply List.map_congr_left
    intro j _
    simp only [Function.comp]
    have e : i + 1 + j + 1 = i + Nat.succ j + 1 := by omega
    rw [e]

/-- The extraction loop on a last line that has no newline and fits: the line
is stored and the end of the input is met. -/
theorem getline_extract_last (n : Nat) (l : List Nat) (k : Nat) (h10 : 10 ∉ l)
    (hk : k + l.length < n) :
    getline_extract n k l =
      { stored := l, rest := [], hit_eof := true, hit_delim := false } := by
  induction l generalizing k with
  | nil => simp [getline_extract]
  | cons c l ih =>
    have hc : c ≠ 10 := fun h => h10 (by simp [h])
    have hl : 10 ∉ l := fun h => h10 (by simp [h])
    have hk1 : k + 1 < n := by simp at hk; omega
    have hk2 : k + 1 + l.length < n := by simp at hk; omega
    simp [getline_extract, hc, hk1, ih (k + 1) hl hk2]

/-- The loop of `get_line` over `k` empty lines followed by a last line that is
not empty, has no newline and fits: the empty lines are read and counted, the
last line is stored and the end of the file is met before it is counted. -/
theorem read_lines_skip_last (cap : Nat) (c : Nat) (l : List Nat)
    (h10 : 10 ∉ c :: l) (hlen : (c :: l).length < cap) (k : Nat) :
    ∀ (fuel : Nat) (f : wifstream) (ln : Int), k < fuel → f.eofbit = false →
      f.failbit = false → f.rest = List.replicate k 10 ++ (c :: l) →
      read_lines cap fuel f (List.replicate cap 0) ln =
        some ({ rest := [], eofbit := true, failbit := false, is_open := f.is_open },
          write_cstr (List.replicate cap 0) (c :: l), ln + k) := by
  have hcap : 0 < cap := by omega
  induction k with
  | zero =>
    intro fuel f ln hfuel he hf hr
    obtain ⟨fuel, rfl⟩ : ∃ m, fuel = m + 1 := ⟨fuel - 1, by omega⟩
    simp only [List.replicate_zero, List.nil_append] at hr
    unfold read_lines
    have hg : f.getline (List.replicate cap 0) cap =
        (write_cstr (List.replicate cap 0) (c :: l),
          { rest := [], eofbit := true, failbit := false, is_open := f.is_open }) := by
      unfold wifstream.getline
      rw [he, hf, hr, getline_extract_last cap (c :: l) 0 h10 (by omega)]
      simp [hcap]
    simp [hg]
  | succ k ih =>
    intro fuel f ln hfuel he hf hr
    obtain ⟨fuel, rfl⟩ : ∃ m, fuel = m + 1 := ⟨fuel - 1, by omega⟩
    have hr1 : f.rest = [] ++ 10 :: (List.replicate k 10 ++ (c :: l)) := by
      rw [hr, List.replicate_succ]
      simp
    unfold read_lines
    simp only [getline_line f _ cap [] _ he hf hr1 (by simp) hcap]
    rw [write_cstr_nil_replicate cap hcap]
    have hz : (List.replicate cap 0).headD 0 = 0 := by
      cases cap with
      | zero => rfl
      | succ m => rfl
    simp only [hz, if_true, Bool.false_eq_true, if_false]
    rw [ih fuel _ (ln + 1) (by omega) rfl rfl rfl]
    simp only [Nat.cast_add, Nat.cast_one]
    congr 3
    omega

/-- The function `get_line` on a good stream that holds `k` empty lines and then
a last line that is not empty, has no newline and fits the buffer: it returns
the first character of that line, which it loaded and handed to the listing. -/
theorem get_line_skip_last (cap : Nat) (s : state) (c : Nat) (l : List Nat) (k : Nat)
    (he : s.b.file.eofbit = false) (hf : s.b.file.failbit = false)
    (hr : s.b.file.rest = List.replicate k 10 ++ (c :: l))
    (h10 : 10 ∉ c :: l) (hlen : (c :: l).length < cap) :
    ∃ s1, get_line cap s = .ok (c, s1) ∧
      s1.b.text = (c :: l) ++ 0 :: (List.replicate cap 0).drop ((c :: l).length + 1) ∧
      s1.b.p_char = .into_text 0 ∧
      s1.g.wcout = (list_line s.g (write_cstr (List.replicate cap 0) (c :: l))
        (s.g.current_line_number + k)).2 := by
  unfold get_line
  rw [he]
  simp only [Bool.false_eq_true, if_false]
  rw [read_lines_skip_last cap c l h10 hlen k _ s.b.file s.g.current_line_number
    (by rw [hr]; simp; omega) he hf hr]
  simp only [source_buffer.deref, le_refl, if_true, Int.toNat_zero]
  rw [write_cstr_getElem _ _ 0 (by simp)]
  exact ⟨_, rfl, rfl, rfl, rfl⟩

set_option maxRecDepth 1000000 in
/-- C13, as stated, fails: a line longer than the print width is not always
delivered in full. Of the line of 300 characters `a`, with an input buffer
of 256 characters, the construction and the calls of `get_char` deliver the
first 255 and the terminator; the call after them has no result, for the
loop of `get_line` does not end, and the last 45 characters never reach the
scan. Of the line of 100 characters whose second one is DEL, nothing behind
DEL is delivered: every call returns `EOF_CHAR`. -/
theorem long_line_not_delivered_in_full :
    returned (session true (List.replicate 300 97 ++ [10]) (List.replicate 300 .get)) =
      List.replicate 254 (some 97) ++ [some 0] ∧
    returned (session true ([97, 127] ++ List.replicate 98 98 ++ [10])
      (List.replicate 100 .get)) = List.replicate 100 (some 127) := by
  decide

/-- C13, amended: the listing does not affect the scan. For every source file
and every sequence of `get_char` and `put_back_char` calls, the construction
with `list_flag` true and with `list_flag` false end alike (both with a
buffer, both with the same fault, or both aborted with the same code), and
the calls return the same characters and leave the same values of
`input_position`. In particular a line that fits the input buffer and holds
no null character and no character 0x7F, whatever its length against the
print width of 80, read on a good stream behind any number of empty lines
and ended by a newline or by the end of the file, is delivered in full:
`get_line` returns its first character and the following calls of `get_char`
return every further character and the terminator, while the record printed
with `list_flag` set holds only its first 80 characters. -/
theorem listing_does_not_affect_scan (cap : Nat) (g0 : globals) (name : List Nat)
    (content : Option (List Nat)) (cs : List call) :
    (∀ s, source_buffer.construct cap { g0 with list_flag := true } name content = .ready s →
      ∃ t, source_buffer.construct cap { g0 with list_flag := false } name content = .ready t ∧
        returned (run cap cs s) = returned (run cap cs t) ∧
        columns (run cap cs s) = columns (run cap cs t)) ∧
    (∀ e, source_buffer.construct cap { g0 with list_flag := true } name content = .failed e →
      source_buffer.construct cap { g0 with list_flag := false } name content = .failed e) ∧
    (∀ ac g, source_buffer.construct cap { g0 with list_flag := true } name content =
        .aborted ac g →
      ∃ g1, source_buffer.construct cap { g0 with list_flag := false } name content =
        .aborted ac g1) ∧
    (∀ (s : state) (c : Nat) (l r : List Nat) (k : Nat), s.b.file.eofbit = false →
      s.b.file.failbit = false →
      s.b.file.rest = List.replicate k 10 ++ (c :: l) ++ 10 :: r → plain_line cap (c :: l) →
      ∃ s1, get_line cap s = .ok (c, s1) ∧
        returned (run cap (List.replicate (c :: l).length .get) s1) =
          (List.range (c :: l).length).map (fun j => some (((c :: l) ++ [0]).getD (j + 1) 0)) ∧
        (s.g.list_flag = true →
          s1.g.wcout = s.g.wcout ++
            [.line { text := (c :: l).take 80
                     line_number := s.g.current_line_number + k + 1
                     nesting_level := s.g.current_nesting_level }])) ∧
    (∀ (s : state) (c : Nat) (l : List Nat) (k : Nat), s.b.file.eofbit = false →
      s.b.file.failbit = false →
      s.b.file.rest = List.replicate k 10 ++ (c :: l) → plain_line cap (c :: l) →
      ∃ s1, get_line cap s = .ok (c, s1) ∧
        returned (run cap (List.replicate (c :: l).length .get) s1) =
          (List.range (c :: l).length).map (fun j => some (((c :: l) ++ [0]).getD (j + 1) 0)) ∧
        (s.g.list_flag = true →
          s1.g.wcout = s.g.wcout ++
            [.line { text := (c :: l).take 80
                     line_number := s.g.current_line_number + k
                     nesting_level := s.g.current_nesting_level }])) := by
  refine ⟨?_, ?_, ?_, ?_, ?_⟩
  · intro s h
    obtain ⟨c, ch, hc, hl⟩ := construct_ready cap _ name content s h
    subst hc
    obtain ⟨t, hlt, hsame⟩ :=
      (get_line_same_scan cap _ _ (entered_same_scan cap g0 name _)).1 ch s hl
    obtain ⟨h1, h2⟩ := run_same_scan cap cs s t hsame
    exact ⟨t, construct_of_get_line cap _ name c ch t hlt, h1, h2⟩
  · intro e h
    cases content with
    | none => simp [source_buffer.construct, wifstream.open, abort_translation] at h
    | some c =>
      rw [construct_some] at h ⊢
      cases hl : get_line cap
          (source_buffer.entered cap { g0 with list_flag := true } name
            (wifstream.open (some c))) with
      | ok r =>
        rw [hl] at h
        cases h
      | error e1 =>
        rw [hl] at h
        rw [(get_line_same_scan cap _ _ (entered_same_scan cap g0 name _)).2 e1 hl]
        exact h
  · intro ac g h
    cases content with
    | none =>
      simp only [source_buffer.construct, wifstream.open, abort_translation, Bool.or_true,
        if_true] at h ⊢
      injection h with h1 _
      rw [← h1]
      exact ⟨_, rfl⟩
    | some c =>
      rw [construct_some] at h
      split at h <;> cases h
  · intro s c l r k he hf hr hpl
    have h0 : ∀ x ∈ c :: l, x ≠ 0 := fun x hx => (hpl.2 x hx).2.1
    have h10 : 10 ∉ c :: l := fun h => (hpl.2 10 h).1 rfl
    obtain ⟨hl, _, _, _, h4⟩ := get_line_skip_record cap s c l r k he hf hr h0 h10 hpl.1
    refine ⟨_, hl, ?_, fun hflag => (h4 hflag).2.1⟩
    have := run_in_line_returned cap (c :: l) ((List.replicate cap 0).drop ((c :: l).length + 1))
      (fun x hx => ⟨(hpl.2 x hx).2.1, (hpl.2 x hx).2.2⟩) (c :: l).length
      (line_read cap s (c :: l) r (s.g.current_line_number + k + 1)) 0 rfl rfl (by omega)
    simpa using this
  · intro s c l k he hf hr hpl
    have h0 : ∀ x ∈ c :: l, x ≠ 0 := fun x hx => (hpl.2 x hx).2.1
    have h10 : 10 ∉ c :: l := fun h => (hpl.2 10 h).1 rfl
    obtain ⟨s1, hl, ht, hp, hw⟩ :=
      get_line_skip_last cap s c l k he hf hr h10 hpl.1
    refine ⟨s1, hl, ?_, fun hflag => ?_⟩
    · have := run_in_line_returned cap (c :: l)
        ((List.replicate cap 0).drop ((c :: l).length + 1))
        (fun x hx => ⟨(hpl.2 x hx).2.1, (hpl.2 x hx).2.2⟩) (c :: l).length
        s1 0 ht hp (by omega)
      simpa using this
    · rw [hw]
      exact (list_line_on s.g (c :: l) ((List.replicate cap 0).drop ((c :: l).length + 1))
        (s.g.current_line_number + k) hflag h0).1

set_option maxRecDepth 100000 in
/-- The amended C13 on the file with one line of 100 characters `a`: with the
listing off the construction ends with a buffer too and 100 calls of
`get_char` followed by a put-back and one more call return the same
characters and leave the same columns as with the listing on; the line is
delivered in full, with and without a newline behind it, while the record
printed holds 80 characters. -/
theorem listing_does_not_affect_scan_witness :
    (∃ t, source_buffer.construct 256 { buffer.startup true 0 with list_flag := false } [102]
        (some (List.replicate 100 97 ++ [10])) = .ready t ∧
      returned (run 256 (List.replicate 100 .get ++ [.put_back, .get])
          (sample (List.replicate 100 97 ++ [10]) 0)) =
        returned (run 256 (List.replicate 100 .get ++ [.put_back, .get]) t) ∧
      columns (run 256 (List.replicate 100 .get ++ [.put_back, .get])
          (sample (List.replicate 100 97 ++ [10]) 0)) =
        columns (run 256 (List.replicate 100 .get ++ [.put_back, .get]) t)) ∧
    (∃ s1, get_line 256 (entry true (List.replicate 100 97 ++ [10])) = .ok (97, s1) ∧
      returned (run 256 (List.replicate (97 :: List.replicate 99 97).length .get) s1) =
        (List.range (97 :: List.replicate 99 97).length).map
          (fun j => some (((97 :: List.replicate 99 97) ++ [0]).getD (j + 1) 0)) ∧
      ((entry true (List.replicate 100 97 ++ [10])).g.list_flag = true →
        s1.g.wcout = (entry true (List.replicate 100 97 ++ [10])).g.wcout ++
          [.line { text := (97 :: List.replicate 99 97).take 80
                   line_number :=
                     (entry true (List.replicate 100 97 ++ [10])).g.current_line_number +
                       (0 : Nat) + 1
                   nesting_level :=
                     (entry true (List.replicate 100 97 ++ [10])).g.current_nesting_level }])) ∧
    (∃ s1, get_line 256 (entry true (List.replicate 100 97)) = .ok (97, s1) ∧
      returned (run 256 (List.replicate (97 :: List.replicate 99 97).length .get) s1) =
        (List.range (97 :: List.replicate 99 97).length).map
          (fun j => some (((97 :: List.replicate 99 97) ++ [0]).getD (j + 1) 0)) ∧
      ((entry true (List.replicate 100 97)).g.list_flag = true →
        s1.g.wcout = (entry true (List.replicate 100 97)).g.wcout ++
          [.line { text := (97 :: List.replicate 99 97).take 80
                   line_number :=
                     (entry true (List.replicate 100 97)).g.current_line_number + (0 : Nat)
                   nesting_level :=
                     (entry true (List.replicate 100 97)).g.current_nesting_level }])) :=
  ⟨(listing_does_not_affect_scan 256 (buffer.startup true 0) [102]
      (some (List.replicate 100 97 ++ [10]))
      (List.replicate 100 .get ++ [.put_back, .get])).1
      (sample (List.replicate 100 97 ++ [10]) 0)
      (by set_option maxRecDepth 100000 in decide),
    (listing_does_not_affect_scan 256 (buffer.startup true 0) [102]
      (some (List.replicate 100 97 ++ [10]))
      (List.replicate 100 .get ++ [.put_back, .get])).2.2.2.1
      (entry true (List.replicate 100 97 ++ [10])) 97 (List.replicate 99 97) [] 0
      rfl rfl (by set_option maxRecDepth 100000 in decide)
      ⟨by set_option maxRecDepth 100000 in decide, by set_option maxRecDepth 100000 in decide⟩,
    (listing_does_not_affect_scan 256 (buffer.startup true 0) [102]
      (some (List.replicate 100 97 ++ [10]))
      (List.replicate 100 .get ++ [.put_back, .get])).2.2.2.2
      (entry true (List.replicate 100 97)) 97 (List.replicate 99 97) 0
      rfl rfl (by set_option maxRecDepth 100000 in decide)
      ⟨by set_option maxRecDepth 100000 in decide, by set_option maxRecDepth 100000 in decide⟩⟩

/-! ### Reaching the end of the file -/

/-- The first physical line and the further ones, for a content that begins with
a character other than a newline. -/
theorem physical_lines_cons (c : Nat) (r : List Nat) (hc : c ≠ 10) :
    ((physical_lines (c :: r)).headD []).length = ((physical_lines r).headD []).length + 1 ∧
    (physical_lines (c :: r)).tail = (physical_lines r).tail ∧
    (physical_lines r).length ≤ (physical_lines (c :: r)).length := by
  cases h : physical_lines r with
  | nil => simp [physical_lines, hc, h]
  | cons l ls => simp [physical_lines, hc, h]

/-- There are not more characters in a file than characters that are no
newlines and physical lines together. -/
theorem length_le_chars_add_lines (r : List Nat) :
    r.length ≤ (r.filter (fun c => c != 10)).length + (physical_lines r).length := by
  induction r with
  | nil => simp
  | cons c r ih =>
    by_cases hc : c = 10
    · subst hc
      simp only [physical_lines, if_true, List.length_cons]
      rw [List.filter_cons_of_neg (by simp)]
      omega
    · have h := (physical_lines_cons c r hc).2.2
      rw [List.filter_cons_of_pos (by simpa using hc)]
      simp only [List.length_cons]
      omega

/-- The extraction loop on a content whose first physical line still fits: it
stops at the end of the input or at a newline, never for want of room; after
a newline the physical lines left are the further ones. -/
theorem getline_extract_fits (n : Nat) (r : List Nat) :
    ∀ k, k + ((physical_lines r).headD []).length < n →
      ((getline_extract n k r).hit_eof = true ∨ (getline_extract n k r).hit_delim = true) ∧
      ((getline_extract n k r).hit_eof = true →
        (getline_extract n k r).hit_delim = false ∧ (getline_extract n k r).rest = []) ∧
      ((getline_extract n k r).hit_delim = true →
        (getline_extract n k r).hit_eof = false ∧
        physical_lines (getline_extract n k r).rest = (physical_lines r).tail) := by
  induction r with
  | nil =>
    intro k _
    simp [getline_extract]
  | cons c r ih =>
    intro k hk
    by_cases hc : c = 10
    · subst hc
      simp [getline_extract, physical_lines]
    · obtain ⟨h1, h2, _⟩ := physical_lines_cons c r hc
      rw [h1] at hk
      have hk1 : k + 1 < n := by omega
      obtain ⟨i1, i2, i3⟩ := ih (k + 1) (by omega)
      unfold getline_extract
      rw [if_neg hc, if_pos hk1, h2]
      exact ⟨i1, i2, i3⟩

/-- A content that is not empty has a physical line. -/
theorem physical_lines_ne_nil (r : List Nat) (h : r ≠ []) : physical_lines r ≠ [] := by
  cases r with
  | nil => exact absurd rfl h
  | cons c r =>
    by_cases hc : c = 10
    · simp [physical_lines, hc]
    · cases hp : physical_lines r with
      | nil => simp [physical_lines, hc, hp]
      | cons l ls => simp [physical_lines, hc, hp]

/-- The call `getline` on a good stream whose physical lines fit the buffer: it
stores a string, leaves the stream readable and either sets `eofbit` or has
read one physical line; the characters stored and left, and one for a file
not yet at its end, are not more than the characters it found. -/
theorem getline_readable (cap : Nat) (hcap : 0 < cap) (f : wifstream) (a : List Nat)
    (he : f.eofbit = false) (hf : f.failbit = false)
    (hfit : ∀ l ∈ physical_lines f.rest, l.length < cap) :
    ∃ st, (f.getline a cap).1 = write_cstr a st ∧
      st.length + (f.getline a cap).2.rest.length +
        (if (f.getline a cap).2.eofbit then 0 else 1) ≤ f.rest.length ∧
      readable cap (f.getline a cap).2 ∧
      ((f.getline a cap).2.eofbit = false →
        (physical_lines (f.getline a cap).2.rest).length + 1 ≤ (physical_lines f.rest).length ∧
        (f.getline a cap).2.failbit = false) := by
  have hhead : 0 + ((physical_lines f.rest).headD []).length < cap := by
    cases hp : physical_lines f.rest with
    | nil => simpa using hcap
    | cons l ls =>
      have := hfit l (by rw [hp]; exact List.mem_cons_self l ls)
      simpa using this
  obtain ⟨e1, e2, e3⟩ := getline_extract_fits cap f.rest 0 hhead
  have hlen := getline_extract_length cap f.rest 0
  have hg1 : (f.getline a cap).1 = write_cstr a (getline_extract cap 0 f.rest).stored := by
    simp [wifstream.getline, he, hf, hcap]
  have hg2 : (f.getline a cap).2.rest = (getline_extract cap 0 f.rest).rest := by
    simp [wifstream.getline, he, hf]
  have hg3 : (f.getline a cap).2.eofbit = (getline_extract cap 0 f.rest).hit_eof := by
    simp [wifstream.getline, he, hf]
  have hg4 : (getline_extract cap 0 f.rest).hit_delim = true →
      (f.getline a cap).2.failbit = false := by
    intro hd
    simp [wifstream.getline, he, hf, hd, (e3 hd).1]
  refine ⟨_, hg1, ?_, ?_, ?_⟩
  · rw [hg2, hg3]
    rcases e1 with h | h
    · rw [(e2 h).1] at hlen
      rw [h]
      simp only [Bool.false_eq_true, if_false, if_true] at hlen ⊢
      omega
    · rw [h] at hlen
      rw [(e3 h).1]
      simp only [Bool.false_eq_true, if_false, if_true] at hlen ⊢
      omega
  · refine ⟨?_, ?_, ?_⟩
    · intro h
      rw [hg3] at h
      rcases e1 with h1 | h1
      · rw [h1] at h
        cases h
      · exact hg4 h1
    · intro h
      rw [hg3] at h
      rw [hg2]
      exact (e2 h).2
    · intro l hl
      rw [hg2] at hl
      rcases e1 with h1 | h1
      · rw [(e2 h1).2] at hl
        simp [physical_lines] at hl
      · rw [(e3 h1).2] at hl
        exact hfit l (List.mem_of_mem_tail hl)
  · intro h
    rw [hg3] at h
    rcases e1 with h1 | h1
    · rw [h1] at h
      cases h
    · refine ⟨?_, hg4 h1⟩
      rw [hg2, (e3 h1).2]
      have hne : f.rest ≠ [] := by
        intro hnil
        rw [hnil] at h1
        simp [getline_extract] at h1
      have := physical_lines_ne_nil f.rest hne
      cases hp : physical_lines f.rest with
      | nil => exact absurd hp this
      | cons l ls => simp

/-- The loop of `get_line` on a good stream whose physical lines fit the buffer
ends within one iteration more than there are physical lines left: it leaves
a string in the array and a readable stream, and the characters of the
string and those left in the file, and one for a file not yet at its end,
are not more than the characters it found. -/
theorem read_lines_readable (cap : Nat) (hcap : 0 < cap) (fuel : Nat) :
    ∀ (f : wifstream) (a : List Nat) (ln : Int), f.eofbit = false → f.failbit = false →
      (∀ l ∈ physical_lines f.rest, l.length < cap) →
      (physical_lines f.rest).length + 1 ≤ fuel →
      ∃ f1 st z ln1, read_lines cap fuel f a ln = some (f1, st ++ 0 :: z, ln1) ∧
        st.length + f1.rest.length + (if f1.eofbit then 0 else 1) ≤ f.rest.length ∧
        readable cap f1 := by
  induction fuel with
  | zero =>
    intro f a ln _ _ _ h
    omega
  | succ fuel ih =>
    intro f a ln he hf hfit hfuel
    obtain ⟨st, g1, g2, g3, g4⟩ := getline_readable cap hcap f a he hf hfit
    unfold read_lines
    dsimp only
    by_cases hb : (f.getline a cap).2.eofbit = true
    · rw [if_pos hb, g1]
      exact ⟨_, st, _, _, rfl, g2, g3⟩
    · rw [if_neg hb]
      have hb1 : (f.getline a cap).2.eofbit = false := by simpa using hb
      by_cases hh : (f.getline a cap).1.headD 0 = 0
      · rw [if_pos hh]
        obtain ⟨f1, st1, z1, ln1, i1, i2, i3⟩ := ih (f.getline a cap).2 (f.getline a cap).1
          (ln + 1) hb1 (g4 hb1).2 g3.2.2 (by have := (g4 hb1).1; omega)
        refine ⟨f1, st1, z1, ln1, i1, ?_, i3⟩
        omega
      · rw [if_neg hh, g1]
        exact ⟨_, st, _, _, rfl, g2, g3⟩

/-- There are not more physical lines than characters. -/
theorem physical_lines_length_le (r : List Nat) : (physical_lines r).length ≤ r.length := by
  induction r with
  | nil => simp [physical_lines]
  | cons c r ih =>
    by_cases hc : c = 10
    · simp only [physical_lines, hc, if_true, List.length_cons]
      omega
    · cases hp : physical_lines r with
      | nil => simp [physical_lines, hc, hp]
      | cons l ls =>
        rw [hp] at ih
        simp only [physical_lines, hc, hp, if_false, List.length_cons] at ih ⊢
        omega

/-- The characters that `get_char` can move over in an array that holds a string
are not more than the characters of the string. -/
theorem takeWhile_string_le (st z : List Nat) :
    ((st ++ 0 :: z).takeWhile (fun c => c != 0 && c != buffer.EOF_CHAR)).length ≤ st.length := by
  induction st with
  | nil => simp
  | cons c st ih =>
    rw [List.cons_append, List.takeWhile_cons]
    split
    · simp only [List.length_cons]
      omega
    · simp

/-- Whether the buffer is scanning, and the bound on the calls to come, depend
on the members of the buffer only, not on the column. -/
theorem scanning_tab_adjust (cap : Nat) (ch : Nat) (s : state) :
    (scanning cap s → scanning cap (tab_adjust ch s)) ∧
    remaining (tab_adjust ch s) = remaining s ∧
    (tab_adjust ch s).b.deref = s.b.deref := by
  unfold scanning remaining run_ahead
  rw [tab_adjust_b]
  exact ⟨id, rfl, rfl⟩

/-- The function `get_line` on a readable stream that has not met the end of the
file: it has a result, the character under the cursor, leaves the buffer
scanning, and the calls still to come are bounded by the characters that
were left in the file. -/
theorem get_line_readable (cap : Nat) (hcap : 0 < cap) (s : state)
    (hr : readable cap s.b.file) (he : s.b.file.eofbit = false) :
    ∃ ch s1, get_line cap s = .ok (ch, s1) ∧ s1.b.deref = some ch ∧ scanning cap s1 ∧
      remaining s1 ≤ s.b.file.rest.length := by
  obtain ⟨f1, st, z, ln1, hread, hm, hr1⟩ := read_lines_readable cap hcap
    (s.b.file.rest.length + 1) s.b.file (List.replicate cap 0) s.g.current_line_number he
    (hr.1 he) hr.2.2 (by have := physical_lines_length_le s.b.file.rest; omega)
  have key : get_line cap s =
      .ok ((st ++ [0]).getD 0 0,
        { g := { s.g with
                  current_line_number := ln1
                  list := (list_line s.g (st ++ 0 :: z) ln1).1
                  wcout := (list_line s.g (st ++ 0 :: z) ln1).2
                  input_position := 0 }
          b := { s.b with file := f1, text := st ++ 0 :: z, p_char := .into_text 0 } }) := by
    unfold get_line
    rw [he]
    simp only [Bool.false_eq_true, if_false]
    rw [hread]
    simp only [source_buffer.deref, le_refl, if_true, Int.toNat_zero]
    rw [line_getElem st z 0 (Nat.zero_le _)]
  refine ⟨_, _, key, ?_, ⟨hr1, 0, rfl, by simp⟩, ?_⟩
  · simp only [source_buffer.deref, le_refl, if_true, Int.toNat_zero]
    exact line_getElem st z 0 (Nat.zero_le _)
  · have ht := takeWhile_string_le st z
    simp only [remaining, run_ahead, Int.toNat_zero, List.drop_zero]
    omega

/-- One `get_char` on a buffer that is scanning and holds no `EOF_CHAR`: either
the cursor is on a null character with the file at its end, and the call has
no result, or the call has a result and the buffer goes on scanning with
fewer calls still to come. -/
theorem get_char_scanning (cap : Nat) (hcap : 0 < cap) (s : state) (h : scanning cap s)
    (hs : sentinel_free s) :
    (s.b.deref = some 0 ∧ s.b.file.eofbit = true ∧ get_char cap s = .error .bad_pointer) ∨
    (∃ c s1, get_char cap s = .ok (c, s1) ∧ scanning cap s1 ∧ sentinel_free s1 ∧
      remaining s1 < remaining s) := by
  obtain ⟨hr, i, hp, hmem⟩ := h
  cases hdrop : s.b.text.drop i with
  | nil =>
    rw [hdrop] at hmem
    cases hmem
  | cons c0 rest =>
    have hget : s.b.text[i]? = some c0 := by
      have := List.getElem?_drop s.b.text i 0
      rw [hdrop] at this
      simpa using this.symm
    have hd : s.b.deref = some c0 := by
      simp only [source_buffer.deref, hp]
      rw [if_pos (by omega)]
      simpa using hget
    have hc127 : c0 ≠ buffer.EOF_CHAR := hs.1 _ (deref_into_text_mem _ i _ hp hd)
    by_cases hc0 : c0 = 0
    · rw [hc0] at hd
      by_cases he : s.b.file.eofbit = true
      · left
        refine ⟨hd, he, ?_⟩
        unfold get_char
        simp only [hd, buffer.EOF_CHAR]
        rw [if_neg (by decide), if_pos trivial, get_line_of_eofbit cap s he]
      · right
        have he1 : s.b.file.eofbit = false := by simpa using he
        obtain ⟨ch, s1, hl, hd1, hs1, hm1⟩ := get_line_readable cap hcap s hr he1
        obtain ⟨t1, t2, t3⟩ := scanning_tab_adjust cap ch s1
        have hg := get_char_of_null cap s s1 ch hd hl
        refine ⟨ch, tab_adjust ch s1, hg, t1 hs1,
          (get_char_sentinel_free cap s _ ch hs hg).1, ?_⟩
        rw [t2]
        simp only [remaining, he1, Bool.false_eq_true, if_false] at hm1 ⊢
        omega
    · right
      have hadv : advances s = true := (advances_iff s).2 ⟨c0, hd, hc127, hc0⟩
      have hrest : s.b.text.drop (i + 1) = rest := by
        rw [← List.tail_drop, hdrop]
        rfl
      have hmem1 : 0 ∈ rest := by
        rw [hdrop] at hmem
        rcases List.mem_cons.1 hmem with h0 | h0
        · exact absurd h0.symm hc0
        · exact h0
      cases hrest1 : rest with
      | nil =>
        rw [hrest1] at hmem1
        cases hmem1
      | cons ch rest2 =>
        have hget1 : s.b.text[i + 1]? = some ch := by
          have := List.getElem?_drop s.b.text (i + 1) 0
          rw [hrest, hrest1] at this
          simpa using this.symm
        have hd1 : ({ s.b with p_char := s.b.p_char.add 1 } : source_buffer).deref = some ch := by
          simp only [source_buffer.deref, hp, pointer.add]
          rw [if_pos (by omega)]
          have e : ((i : Int) + 1).toNat = i + 1 := by omega
          rw [e]
          exact hget1
        have hg := get_char_of_advances cap s hadv
        simp only [hd1] at hg
        obtain ⟨t1, t2, t3⟩ := scanning_tab_adjust cap ch
          { g := { s.g with input_position := s.g.input_position + 1 }
            b := { s.b with p_char := s.b.p_char.add 1 } }
        refine ⟨ch, _, hg, t1 ⟨hr, i + 1, ?_, ?_⟩,
          (get_char_sentinel_free cap s _ ch hs hg).1, ?_⟩
        · simp only [hp, pointer.add]
          congr 1
        · show 0 ∈ s.b.text.drop (i + 1)
          rw [hrest]
          exact hmem1
        · rw [t2]
          have hpass : (c0 != 0 && c0 != buffer.EOF_CHAR) = true := by
            simp [hc0, hc127]
          have e1 : run_ahead s =
              (rest.takeWhile (fun c => c != 0 && c != buffer.EOF_CHAR)).length + 1 := by
            simp only [run_ahead, hp, Int.toNat_ofNat, hdrop, List.takeWhile_cons]
            rw [if_pos hpass]
            rfl
          have e2 : run_ahead
              { g := { s.g with input_position := s.g.input_position + 1 }
                b := { s.b with p_char := s.b.p_char.add 1 } } =
              (rest.takeWhile (fun c => c != 0 && c != buffer.EOF_CHAR)).length := by
            simp only [run_ahead, hp, pointer.add]
            have e : ((i : Int) + 1).toNat = i + 1 := by omega
            rw [e, hrest]
          simp only [remaining] at e1 e2 ⊢
          rw [e1, e2]
          omega

/-- On a buffer that is scanning, holds no `EOF_CHAR` and has at most `n` calls
still to come, at most `n` calls of `get_char` have a result; they bring the
file to its end with the cursor on a null character, and the call after them
has no result. -/
theorem get_chars_reach_end_of_file (cap : Nat) (hcap : 0 < cap) (n : Nat) :
    ∀ s : state, scanning cap s → sentinel_free s → remaining s ≤ n →
      ∃ (m : Nat) (s_end : state), m ≤ n ∧ get_chars cap m s = some s_end ∧
        s_end.b.deref = some 0 ∧ s_end.b.file.eofbit = true ∧ s_end.b.file.rest = [] ∧
        get_char cap s_end = .error .bad_pointer := by
  induction n with
  | zero =>
    intro s h hs hrem
    rcases get_char_scanning cap hcap s h hs with ⟨hd, he, hg⟩ | ⟨c, s1, _, _, _, hlt⟩
    · exact ⟨0, s, le_refl _, rfl, hd, he, h.1.2.1 he, hg⟩
    · omega
  | succ n ih =>
    intro s h hs hrem
    rcases get_char_scanning cap hcap s h hs with ⟨hd, he, hg⟩ | ⟨c, s1, hg, h1, hs1, hlt⟩
    · exact ⟨0, s, Nat.zero_le _, rfl, hd, he, h.1.2.1 he, hg⟩
    · obtain ⟨m, s_end, hm, i1, i2⟩ := ih s1 h1 hs1 (by omega)
      refine ⟨m + 1, s_end, by omega, ?_, i2⟩
      rw [get_chars, hg]
      exact i1

/-- C17, on the code: for every source file whose physical lines all fit the
input buffer and whose content holds no character 0x7F, the construction ends
with a buffer and the loop of `get_line` ends within one read more than there
are physical lines left; but no `get_char` call returns `EOF_CHAR`. After at
most as many calls as the file has characters, all with a result, the file is
at its end with the cursor on a null character, and the next call, the one
that is to return `EOF_CHAR`, reads `*p_char` through
`(wchar_t *)&buffer::EOF_CHAR` and has no result. -/
theorem end_of_file_not_returned (cap : Nat) (hcap : 0 < cap) (g0 : globals) (name : List Nat)
    (content : List Nat) (hfit : ∀ l ∈ physical_lines content, l.length < cap)
    (h127 : buffer.EOF_CHAR ∉ content) :
    ∃ (s0 : state) (m : Nat) (s_end : state),
      source_buffer.construct cap g0 name (some content) = .ready s0 ∧
      m ≤ content.length ∧ get_chars cap m s0 = some s_end ∧
      s_end.b.deref = some 0 ∧ s_end.b.file.eofbit = true ∧ s_end.b.file.rest = [] ∧
      get_char cap s_end = .error .bad_pointer ∧
      (∀ n, ∀ x ∈ run cap (List.replicate n .get) s0, x.1 ≠ some buffer.EOF_CHAR) ∧
      (∀ (f : wifstream) (a : List Nat) (ln : Int), f.eofbit = false → f.failbit = false →
        (∀ l ∈ physical_lines f.rest, l.length < cap) →
        ∃ r, read_lines cap ((physical_lines f.rest).length + 1) f a ln = some r) := by
  have hr : readable cap
      (source_buffer.entered cap g0 name (wifstream.open (some content))).b.file :=
    ⟨fun _ => rfl, fun h => (by cases h), hfit⟩
  obtain ⟨ch, s0, hl, _, hs0, hm0⟩ := get_line_readable cap hcap _ hr rfl
  have hm1 : remaining s0 ≤ content.length := hm0
  have hfree : sentinel_free s0 :=
    (get_line_sentinel_free cap _ s0 ch (entered_sentinel_free cap g0 name content h127) hl).1
  obtain ⟨m, s_end, hm, i1, i2, i3, i4, i5⟩ :=
    get_chars_reach_end_of_file cap hcap content.length s0 hs0 hfree hm1
  refine ⟨s0, m, s_end, construct_of_get_line cap g0 name content ch s0 hl, hm, i1, i2, i3, i4,
    i5, fun n x hx => (run_get_sentinel_free cap n s0 hfree x hx).2, ?_⟩
  intro f a ln he hf hfitf
  obtain ⟨f1, st, z, ln1, h1, _, _⟩ := read_lines_readable cap hcap
    ((physical_lines f.rest).length + 1) f a ln he hf hfitf (le_refl _)
  exact ⟨_, h1⟩

/-- C17 on the code, on the file with the lines `ab`, empty and `c` (the last
one without newline), with an input buffer of 256 characters. -/
theorem end_of_file_not_returned_witness :
    ∃ (s0 : state) (m : Nat) (s_end : state),
      source_buffer.construct 256 (buffer.startup true 0) [102]
        (some [97, 98, 10, 10, 99]) = .ready s0 ∧
      m ≤ [97, 98, 10, 10, 99].length ∧ get_chars 256 m s0 = some s_end ∧
      s_end.b.deref = some 0 ∧ s_end.b.file.eofbit = true ∧ s_end.b.file.rest = [] ∧
      get_char 256 s_end = .error .bad_pointer ∧
      (∀ n, ∀ x ∈ run 256 (List.replicate n .get) s0, x.1 ≠ some buffer.EOF_CHAR) ∧
      (∀ (f : wifstream) (a : List Nat) (ln : Int), f.eofbit = false → f.failbit = false →
        (∀ l ∈ physical_lines f.rest, l.length < 256) →
        ∃ r, read_lines 256 ((physical_lines f.rest).length + 1) f a ln = some r) :=
  end_of_file_not_returned 256 (by decide) (buffer.startup true 0) [102] [97, 98, 10, 10, 99]
    (by decide) (by decide)

end cx
